import Mathlib

/-!
Verification of the Akumuli compression core
(`src/libakumuli/storage_engine/compression.cpp`).

Doubles are handled purely as their IEEE-754 bit patterns (the codec only
bit-casts them), so every value is embedded as a `Nat` below `2^64`.
Machine integers are embedded as `Nat` with explicit `% 2^64` where
wrap-around can occur.  Byte streams are lists of bytes (`Nat` below 256);
a bounded stream additionally carries its capacity.
-/

namespace Akumuli

/-- `2^64`, the modulus of the `uint64_t` arithmetic used throughout. -/
def U64 : Nat := 2 ^ 64

/-- Status codes surfaced by the codec (from `akumuli_def.h`, named in the
spec: SUCCESS / OVERFLOW / NO_DATA / BAD_DATA). -/
inductive AkuStatus where
  | success
  | eoverflow
  | enodata
  | ebaddata
deriving DecidableEq, Repr

/-! ## FCM predictor (`FcmPredictor`, compression.cpp lines 10-25)

The table (size `PREDICTOR_N = 1 << 10`, all zeros initially) is embedded as
a function from index to stored word; `MASK_ = 1023`. -/

/-- State of `FcmPredictor`: hash-indexed table of 64-bit words
(`std::vector<uint64_t>` of size `PREDICTOR_N`). -/
structure FcmPredictor where
  table : List Nat
  last_hash : Nat
deriving DecidableEq

/-- Freshly constructed predictor: zeroed table, `last_hash = 0`. -/
def FcmPredictor.init : FcmPredictor := ⟨List.replicate 1024 0, 0⟩

/-- `FcmPredictor::predict_next`: return `table[last_hash]`. -/
def FcmPredictor.predict_next (p : FcmPredictor) : Nat :=
  p.table.getD p.last_hash 0

/-- `FcmPredictor::update`: store `value`, rehash
`last_hash = ((last_hash << 6) ^ (value >> 48)) & MASK_`. -/
def FcmPredictor.update (p : FcmPredictor) (value : Nat) : FcmPredictor :=
  { table := p.table.set p.last_hash value
    last_hash := ((p.last_hash <<< 6) ^^^ (value >>> 48)) &&& 1023 }

/-- Predictor table only ever holds 64-bit words. -/
def FcmPredictor.Wf (p : FcmPredictor) : Prop :=
  ∀ i, p.table.getD i 0 < U64

/-! ## Little-endian byte emission

`encode_value` (lines 49-96) writes `(flag & 7) + 1` bytes of
`diff >> nshift` through a `switch` whose fall-through cases emit the value
little-endian byte by byte (cases 8 and 4 use the multi-byte `put_raw`,
which is also little-endian on the wire, spec 4.A). -/

/-- `n` little-endian bytes of `x`. -/
def leBytes : Nat → Nat → List Nat
  | 0, _ => []
  | n + 1, x => (x &&& 0xFF) :: leBytes n (x >>> 8)

/-- Read `n` little-endian bytes from the front of a stream
(`decode_value`'s loop `diff |= delta << (i*8)`); fails past end of data. -/
def readBytesLE : Nat → List Nat → Option (Nat × List Nat)
  | 0, bs => some (0, bs)
  | _ + 1, [] => none
  | n + 1, b :: bs =>
    match readBytesLE n bs with
    | some (v, rest) => some (b ||| (v <<< 8), rest)
    | none => none

/-- `encode_value` (compression.cpp lines 49-96): emit
`nbytes = (flag & 7) + 1` little-endian bytes of `diff >> nshift` where
`nshift = (64 - nbytes*8) * (flag >> 3)`. -/
def encode_value (diff : Nat) (flag : Nat) : List Nat :=
  let nbytes := (flag &&& 7) + 1
  let nshift := (64 - nbytes * 8) * (flag >>> 3)
  leBytes nbytes (diff >>> nshift)

/-- `decode_value` (lines 98-108): read `(flag & 7) + 1` little-endian bytes,
then shift left by `(64 - nbytes*8) * (flag >> 3)` (as `uint64_t`). -/
def decode_value (flag : Nat) (bs : List Nat) : Option (Nat × List Nat) :=
  let nbytes := (flag &&& 7) + 1
  match readBytesLE nbytes bs with
  | some (diff, rest) =>
    let shift_width := (64 - nbytes * 8) * (flag >>> 3)
    some ((diff <<< shift_width) % U64, rest)
  | none => none

/-! ## Trailing/leading zero counts

`__builtin_ctzl` / `__builtin_clzl` on a non-zero 64-bit word.  `ctzAux` peels
low bits; `sizeAux` is the bit length, so `clz64 x = 64 - bitlength x`. -/

/-- Count of trailing zero bits, with fuel (enough fuel: 64). -/
def ctzAux : Nat → Nat → Nat
  | 0, _ => 0
  | fuel + 1, x => if x &&& 1 = 1 then 0 else ctzAux fuel (x >>> 1) + 1

/-- `__builtin_ctzl` on a 64-bit word. -/
def ctz64 (x : Nat) : Nat := ctzAux 64 x

/-- Bit length, with fuel. -/
def sizeAux : Nat → Nat → Nat
  | 0, _ => 0
  | fuel + 1, x => if x = 0 then 0 else sizeAux fuel (x >>> 1) + 1

/-- `__builtin_clzl` on a 64-bit word: 64 minus the bit length. -/
def clz64 (x : Nat) : Nat := 64 - sizeAux 64 x

/-- Flag selection of the predictive double codec (`FcmStreamWriter::put`
lines 139-167 and identically `compress_doubles` lines 225-253): compare
trailing vs leading zero count of `diff` (both 64 when `diff = 0`), compute
`nbytes`, decrement if positive, set bit 3 when high bytes are stored. -/
def flagOf (diff : Nat) : Nat :=
  let trailing_zeros := if diff ≠ 0 then ctz64 diff else 64
  let leading_zeros := if diff ≠ 0 then clz64 diff else 64
  if trailing_zeros > leading_zeros then
    let nbytes := 8 - trailing_zeros / 8
    let nbytes := if nbytes > 0 then nbytes - 1 else nbytes
    8 ||| (nbytes &&& 7)
  else
    let nbytes := 8 - leading_zeros / 8
    let nbytes := if nbytes > 0 then nbytes - 1 else nbytes
    nbytes &&& 7

/-! ## Predictive double codec

`compress_doubles` (lines 209-275) and `FcmStreamWriter::put`/`commit`
(lines 129-207) run the same per-value algorithm; values are handled in
pairs (one shared flag byte per pair), and an odd trailing value is padded
by `encode_value(0, 0)` on commit.  The loop with its `ix % 2` buffering of
`(prev_diff, prev_flag)` is embedded as a two-at-a-time recursion. -/

/-- One encoder step for a value with bit pattern `bits`: predict, update,
XOR; returns `(diff, flag, next predictor)`. -/
def fcmStep (p : FcmPredictor) (bits : Nat) : Nat × Nat × FcmPredictor :=
  let predicted := p.predict_next
  let p1 := p.update bits
  let diff := bits ^^^ predicted
  (diff, flagOf diff, p1)

/-- Pairwise loop of `compress_doubles` / `FcmStreamWriter::put` plus the
odd-length padding of `commit`; returns the emitted bytes and the final
predictor state. -/
def compressPairs (p : FcmPredictor) : List Nat → List Nat × FcmPredictor
  | [] => ([], p)
  | [v] =>
    let (diff, flag, p1) := fcmStep p v
    ((flag <<< 4) :: (encode_value diff flag ++ encode_value 0 0), p1)
  | v1 :: v2 :: rest =>
    let (d1, f1, p1) := fcmStep p v1
    let (d2, f2, p2) := fcmStep p1 v2
    let (tail, pf) := compressPairs p2 rest
    (((f1 <<< 4) ||| f2) :: (encode_value d1 f1 ++ encode_value d2 f2 ++ tail), pf)

/-- `CompressionUtil::compress_doubles` (lines 209-275): emitted bytes.
The C++ function returns `input.size()` (the element count), which is what
`encode_chunk` stores in the value-stream length field. -/
def compress_doubles (input : List Nat) : List Nat :=
  (compressPairs .init input).1

/-- One decoder step: `bits = predicted ^ diff`, update predictor. -/
def fcmUnstep (p : FcmPredictor) (diff : Nat) : Nat × FcmPredictor :=
  let bits := p.predict_next ^^^ diff
  (bits, p.update bits)

/-- Pairwise loop of `decompress_doubles` (lines 306-338) /
`FcmStreamReader::next`: on an even index read the shared flag byte (high
nibble first), decode a diff, XOR with the prediction.  Returns the decoded
bit patterns, the final predictor and the unconsumed bytes. -/
def decompressPairs (p : FcmPredictor) :
    Nat → List Nat → Option (List Nat × FcmPredictor × List Nat)
  | 0, bs => some ([], p, bs)
  | 1, bs =>
    match bs with
    | [] => none
    | flags :: bs1 =>
      match decode_value (flags >>> 4) bs1 with
      | some (diff, bs2) =>
        let (bits, p1) := fcmUnstep p diff
        some ([bits], p1, bs2)
      | none => none
  | n + 2, bs =>
    match bs with
    | [] => none
    | flags :: bs1 =>
      match decode_value (flags >>> 4) bs1 with
      | some (diff1, bs2) =>
        let (bits1, p1) := fcmUnstep p diff1
        match decode_value (flags &&& 0xF) bs2 with
        | some (diff2, bs3) =>
          let (bits2, p2) := fcmUnstep p1 diff2
          match decompressPairs p2 n bs3 with
          | some (vs, pf, rest) => some (bits1 :: bits2 :: vs, pf, rest)
          | none => none
        | none => none
      | none => none

/-- `CompressionUtil::decompress_doubles` (lines 306-338): decode `numvalues`
bit patterns from the stream (`none` models the out-of-data exception). -/
def decompress_doubles (numvalues : Nat) (bs : List Nat) : Option (List Nat) :=
  match decompressPairs .init numvalues bs with
  | some (vs, _, _) => some vs
  | none => none

/-! ## Base-128 varint and delta-RLE integer codec

`Base128StreamWriter`/`DeltaRLEWriter`/`DeltaRLEReader` live in
`compression.h`, which is not part of the sources; they are modelled from
the spec (4.A, 4.B): first-order differences (`uint64_t` wrap-around), run
length compression (consecutive equal deltas emit `(run_length, delta)`),
every integer a base-128 varint (7 data bits per byte, continuation bit in
the MSB), the first value absolute (delta against an initial previous value
of zero).  A batch (`tput`, or put-loop plus `commit`) flushes its final
run; the delta state persists across batches. -/

/-- Base-128 digit emission with fuel (structural, so that the kernel can
evaluate it on concrete inputs). -/
def varintAux : Nat → Nat → List Nat
  | 0, _ => []
  | fuel + 1, x => if x < 128 then [x] else ((x &&& 127) ||| 128) :: varintAux fuel (x >>> 7)

/-- Modelled from the spec (4.B): base-128 varint of `x`, 7 data bits per
byte, continuation bit in the MSB, little-endian digit order.  Ten digits
cover every value the codec feeds it (everything is `uint64_t`). -/
def varint (x : Nat) : List Nat := varintAux 10 x

/-- Modelled from the spec (4.B): read one varint; a byte below 128 ends the
number.  Fails past end of data. -/
def readVarint : List Nat → Option (Nat × List Nat)
  | [] => none
  | b :: bs =>
    if b < 128 then some (b, bs)
    else
      match readVarint bs with
      | some (v, rest) => some ((b &&& 127) ||| (v <<< 7), rest)
      | none => none

/-- `uint64_t` subtraction `a - b`. -/
def wrapSub (a b : Nat) : Nat := (a + U64 - b) % U64

/-- First-order differences of `xs` against a previous value `prev`. -/
def deltasFrom (prev : Nat) : List Nat → List Nat
  | [] => []
  | x :: xs => wrapSub x prev :: deltasFrom x xs

/-- Run-length grouping of consecutive equal values into `(count, value)`
pairs, in stream order. -/
def rleRuns : List Nat → List (Nat × Nat)
  | [] => []
  | x :: xs =>
    match rleRuns xs with
    | [] => [(1, x)]
    | (n, y) :: rest => if x = y then (n + 1, y) :: rest else (1, x) :: (n, y) :: rest

/-- Modelled from the spec (4.B): a `DeltaRLEWriter` batch (`tput`, or the
put-loop plus `commit` used by `encode_chunk`): delta-encode `xs` against
`prev`, flush the runs as `(count, delta)` varint pairs; returns the bytes
and the new previous value. -/
def deltaRLE_encode (prev : Nat) (xs : List Nat) : List Nat × Nat :=
  (((rleRuns (deltasFrom prev xs)).map fun r => varint r.1 ++ varint r.2).flatten,
   xs.getLastD prev)

/-- Modelled from the spec (4.B): `DeltaRLEReader::next` driven `count`
times.  State: previous value, remaining repetitions of the current run and
its delta.  Returns the values, the final state and the unconsumed bytes. -/
def deltaRLE_decode :
    Nat → Nat → Nat → Nat → List Nat → Option (List Nat × Nat × Nat × Nat × List Nat)
  | 0, prev, runLeft, runDelta, bs => some ([], prev, runLeft, runDelta, bs)
  | c + 1, prev, 0, _, bs =>
    (match readVarint bs with
     | some (n, bs1) =>
       match readVarint bs1 with
       | some (d, bs2) =>
         if n = 0 then none
         else
           let v := (prev + d) % U64
           match deltaRLE_decode c v (n - 1) d bs2 with
           | some (vs, p, rl, rd, rest) => some (v :: vs, p, rl, rd, rest)
           | none => none
       | none => none
     | none => none)
  | c + 1, prev, rl + 1, runDelta, bs =>
    let v := (prev + runDelta) % U64
    match deltaRLE_decode c v rl runDelta bs with
    | some (vs, p, rl1, rd, rest) => some (v :: vs, p, rl1, rd, rest)
    | none => none

/-- Cumulative application of deltas: the value sequence a delta stream
denotes (all arithmetic mod `2^64`). -/
def applyDeltas (prev : Nat) : List Nat → List Nat
  | [] => []
  | d :: ds => (prev + d) % U64 :: applyDeltas ((prev + d) % U64) ds

/-- Wire bytes of a list of `(count, delta)` runs. -/
def runsBytes (runs : List (Nat × Nat)) : List Nat :=
  (runs.map fun r => varint r.1 ++ varint r.2).flatten

/-- The delta sequence a list of runs denotes. -/
def runsDeltas (runs : List (Nat × Nat)) : List Nat :=
  (runs.map fun r => List.replicate r.1 r.2).flatten

/-! ## Multi-stream chunk codec (`encode_chunk` / `decode_chunk`,
compression.cpp lines 371-461)

The buffer is unbounded here: the claims about the chunk codec concern
encodes that do not overflow.  The u32 length fields before the paramid and
timestamp streams are patched with `wstream.size()`; per
`FcmStreamWriter::size` (line 189) — and the spec's 4.A `size()` —
that is the *cumulative* byte count of the shared stream since its
construction, prefixes included.  The u32 before the value stream is
patched with the return value of `compress_doubles`, the element count
(line 409 and line 274). -/

/-- `UncompressedChunk` (three parallel arrays). -/
structure UncompressedChunk where
  paramids : List Nat
  timestamps : List Nat
  values : List Nat
deriving DecidableEq, Repr

/-- `AKU_MIN_TIMESTAMP`: modelled from the spec as the least `u64`. -/
def AKU_MIN_TIMESTAMP : Nat := 0

/-- `AKU_MAX_TIMESTAMP`: modelled from the spec as the greatest `u64`. -/
def AKU_MAX_TIMESTAMP : Nat := U64 - 1

/-- Little-endian `u32` on the wire. -/
def le32 (x : Nat) : List Nat := leBytes 4 x

/-- Little-endian `u16` on the wire. -/
def le16 (x : Nat) : List Nat := leBytes 2 x

/-- Little-endian `u64` on the wire. -/
def le64 (x : Nat) : List Nat := leBytes 8 x

/-- `CompressionUtil::encode_chunk` (lines 371-417): the emitted bytes and
the `(n_elements, ts_begin, ts_end)` outputs. -/
def encode_chunk (data : UncompressedChunk) : List Nat × Nat × Nat × Nat :=
  let pidBody := (deltaRLE_encode 0 data.paramids).1
  let sz1 := 4 + pidBody.length
  let tsBody := (deltaRLE_encode 0 data.timestamps).1
  let sz2 := sz1 + 4 + tsBody.length
  let mints := data.timestamps.foldl min AKU_MAX_TIMESTAMP
  let maxts := data.timestamps.foldl max AKU_MIN_TIMESTAMP
  let valBody := compress_doubles data.values
  (le32 sz1 ++ pidBody ++ le32 sz2 ++ tsBody ++ le32 1 ++
     le32 data.values.length ++ valBody,
   data.paramids.length, mints, maxts)

/-- The `nblocks` u32 that `decode_chunk` (line 455) reads directly before
the double stream: skip both delta-RLE streams (consuming `nelements` values
each after a 4-byte length field) and the `ncolumns` word. -/
def decode_chunk_nblocks (bs : List Nat) (nelements : Nat) : Option Nat :=
  match readBytesLE 4 bs with
  | some (_, bs1) =>
    match deltaRLE_decode nelements 0 0 0 bs1 with
    | some (_, _, _, _, bs2) =>
      match readBytesLE 4 bs2 with
      | some (_, bs3) =>
        match deltaRLE_decode nelements 0 0 0 bs3 with
        | some (_, _, _, _, bs4) =>
          match readBytesLE 4 bs4 with
          | some (_, bs5) =>
            match readBytesLE 4 bs5 with
            | some (nblocks, _) => some nblocks
            | none => none
          | none => none
        | none => none
      | none => none
    | none => none
  | none => none

/-- `CompressionUtil::decode_chunk` (lines 426-461): parse paramids,
timestamps (each `nelements` deltas after an ignored u32 size field), the
ignored `ncolumns`, then `nblocks` doubles into a vector pre-sized to
`nelements` zeros (`none` models the caught exception, `AKU_EBAD_DATA`). -/
def decode_chunk (bs : List Nat) (nelements : Nat) : Option UncompressedChunk :=
  match readBytesLE 4 bs with
  | some (_, bs1) =>
    match deltaRLE_decode nelements 0 0 0 bs1 with
    | some (paramids, _, _, _, bs2) =>
      match readBytesLE 4 bs2 with
      | some (_, bs3) =>
        match deltaRLE_decode nelements 0 0 0 bs3 with
        | some (timestamps, _, _, _, bs4) =>
          match readBytesLE 4 bs4 with
          | some (_, bs5) =>
            match readBytesLE 4 bs5 with
            | some (nblocks, bs6) =>
              if nelements < nblocks then none
              else
                match decompressPairs .init nblocks bs6 with
                | some (vs, _, _) =>
                  some ⟨paramids, timestamps, vs ++ List.replicate (nelements - nblocks) 0⟩
                | none => none
            | none => none
          | none => none
        | none => none
      | none => none
    | none => none
  | none => none

/-! ## Reorder helpers (lines 463-502) -/

/-- Modelled semantics of `std::stable_sort` with a strict comparator `lt`:
a stable merge sort ordered by the complement relation `fun a b => ! lt b a`
(the induced non-strict order). -/
def stableSort (lt : Nat → Nat → Bool) (l : List Nat) : List Nat :=
  l.mergeSort fun a b => ! lt b a

/-- `reorder_chunk_header` (lines 463-484): `none` iff the three arrays
differ in length; otherwise stable-sort the index permutation by `f` and
emit the three arrays reordered by it. -/
def reorder_chunk_header (header : UncompressedChunk) (f : Nat → Nat → Bool) :
    Option UncompressedChunk :=
  let len := header.timestamps.length
  if len ≠ header.values.length ∨ len ≠ header.paramids.length then none
  else
    let index := stableSort f (List.range len)
    some ⟨index.map fun ix => header.paramids.getD ix 0,
          index.map fun ix => header.timestamps.getD ix 0,
          index.map fun ix => header.values.getD ix 0⟩

/-- `CompressionUtil::convert_from_chunk_order` (lines 486-493): stable sort
by timestamp. -/
def convert_from_chunk_order (header : UncompressedChunk) : Option UncompressedChunk :=
  reorder_chunk_header header fun lhs rhs =>
    decide (header.timestamps.getD lhs 0 < header.timestamps.getD rhs 0)

/-- `CompressionUtil::convert_from_time_order` (lines 495-502): stable sort
by paramid. -/
def convert_from_time_order (header : UncompressedChunk) : Option UncompressedChunk :=
  reorder_chunk_header header fun lhs rhs =>
    decide (header.paramids.getD lhs 0 < header.paramids.getD rhs 0)

/-! ## Data-block codec (`DataBlockWriter` / `DataBlockReader`,
compression.cpp lines 506-671)

The buffer is bounded: `cap` bytes in total, 14 of which hold the header
(version u16, nchunks u16, ntail u16, id u64); `body` is everything after
the header.  `CHUNK_SIZE = 16`.  The timestamp stream is the spec-modelled
delta-RLE codec, the value stream the predictive codec; both share the
stream and flush one chunk per `tput`, so their carried state is the delta
previous value resp. the FCM predictor (pair buffer and RLE run are empty
at chunk boundaries).  Failed stream writes reject per `put_raw`; for the
byte-wise compressed streams the fitting byte prefix remains in the buffer
(the chunk is lost either way — the writer clears its staging buffers and
reports `AKU_EOVERFLOW`). -/

/-- `MARGIN` of `DataBlockWriter::room_for_chunk` (line 593). -/
def MARGIN : Nat := 10 * 16 + 9 * 16

/-- Modelled from the spec: the on-disk format version tag (its value is
irrelevant to every claim). -/
def AKUMULI_VERSION : Nat := 4

/-- `DataBlockWriter` state. -/
structure DataBlockWriter where
  cap : Nat
  body : List Nat
  ntail : Nat
  ts_writebuf : List Nat
  val_writebuf : List Nat
  write_index : Nat
  ts_prev : Nat
  fcm : FcmPredictor

/-- Constructed writer: header written, counters zeroed (the constructor
panics when `cap` cannot hold the 14-byte header; claims use larger
buffers). -/
def DataBlockWriter.mk0 (cap : Nat) : DataBlockWriter :=
  ⟨cap, [], 0, [], [], 0, 0, .init⟩

/-- `Base128StreamWriter::space_left` as seen by the writer. -/
def DataBlockWriter.space_left (w : DataBlockWriter) : Nat :=
  w.cap - (14 + w.body.length)

/-- `DataBlockWriter::room_for_chunk` (lines 592-599). -/
def DataBlockWriter.room_for_chunk (w : DataBlockWriter) : Bool :=
  ! decide (w.space_left < MARGIN)

/-- Append a compressed stream's bytes; on overflow the fitting prefix is
written (byte-granular `put_raw` rejection) and `false` returned. -/
def DataBlockWriter.tryAppend (w : DataBlockWriter) (bs : List Nat) :
    Bool × DataBlockWriter :=
  if 14 + w.body.length + bs.length ≤ w.cap then
    (true, { w with body := w.body ++ bs })
  else
    (false, { w with body := w.body ++ bs.take (w.cap - (14 + w.body.length)) })

/-- Atomic raw `u64`/`double` append (`put_raw`): all 8 bytes or nothing. -/
def DataBlockWriter.putRaw64 (w : DataBlockWriter) (x : Nat) :
    Bool × DataBlockWriter :=
  if 14 + w.body.length + 8 ≤ w.cap then
    (true, { w with body := w.body ++ le64 x })
  else (false, w)

/-- Flushing a completed chunk (the `write_index & CHUNK_MASK == 0` arm of
`DataBlockWriter::put`): `ts_stream_.tput` then `val_stream_.tput` into the
shared stream, clearing the write buffers; `AKU_EOVERFLOW` when either
`tput` rejects a write (the branch guarded by `assert(false)`). -/
def DataBlockWriter.flushChunk (w1 : DataBlockWriter) : AkuStatus × DataBlockWriter :=
  let tsBytes := (deltaRLE_encode w1.ts_prev w1.ts_writebuf).1
  let prev1 := (deltaRLE_encode w1.ts_prev w1.ts_writebuf).2
  let valBytes := (compressPairs w1.fcm w1.val_writebuf).1
  let fcm1 := (compressPairs w1.fcm w1.val_writebuf).2
  if (w1.tryAppend tsBytes).1 then
    if ((w1.tryAppend tsBytes).2.tryAppend valBytes).1 then
      (.success,
        { ((w1.tryAppend tsBytes).2.tryAppend valBytes).2 with
            ts_writebuf := [], val_writebuf := [], ts_prev := prev1, fcm := fcm1 })
    else
      (.eoverflow,
        { ((w1.tryAppend tsBytes).2.tryAppend valBytes).2 with
            ts_writebuf := [], val_writebuf := [], ts_prev := prev1, fcm := fcm1 })
  else
    (.eoverflow,
      { (w1.tryAppend tsBytes).2 with
          ts_writebuf := [], val_writebuf := [], ts_prev := prev1, fcm := fcm1 })

/-- `DataBlockWriter::put` (lines 527-559). -/
def DataBlockWriter.put (w : DataBlockWriter) (ts value : Nat) :
    AkuStatus × DataBlockWriter :=
  if w.room_for_chunk then
    let w1 : DataBlockWriter :=
      { w with ts_writebuf := w.ts_writebuf ++ [ts],
               val_writebuf := w.val_writebuf ++ [value],
               write_index := w.write_index + 1 }
    if w1.write_index % 16 = 0 then w1.flushChunk
    else (.success, w1)
  else
    let ok1 := (w.putRaw64 ts).1
    let w1 := (w.putRaw64 ts).2
    let ok2 := (w1.putRaw64 value).1
    let w2 := (w1.putRaw64 value).2
    if ok1 && ok2 then (.success, { w2 with ntail := w2.ntail + 1 })
    else (.eoverflow, w2)

/-- Tail flush loop of `DataBlockWriter::commit` (lines 575-585): append the
staged samples raw, bumping `ntail`, stopping at the first failed write. -/
def commitTail (w : DataBlockWriter) : List (Nat × Nat) → DataBlockWriter
  | [] => w
  | (ts, v) :: rest =>
    let ok1 := (w.putRaw64 ts).1
    let w1 := (w.putRaw64 ts).2
    let ok2 := (w1.putRaw64 v).1
    let w2 := (w1.putRaw64 v).2
    if ok1 && ok2 then commitTail { w2 with ntail := w2.ntail + 1 } rest
    else w2

/-- `DataBlockWriter::commit` (lines 561-590): flush the partial chunk as
raw tail samples, patch `nchunks`.  `none` models the `AKU_PANIC` when the
write buffer is non-empty but `ntail` is already non-zero.  Returns the
final writer and the patched `nchunks`. -/
def DataBlockWriter.commit (w : DataBlockWriter) : Option (DataBlockWriter × Nat) :=
  let nchunks := w.write_index / 16
  let buftail := w.write_index % 16
  if buftail ≠ 0 then
    if w.ntail ≠ 0 then none
    else some (commitTail w (w.ts_writebuf.zip w.val_writebuf), nchunks)
  else some (w, nchunks)

/-- The committed block as the reader sees it: 14-byte header (version,
patched `nchunks` and `ntail` as `uint16_t`, id) followed by the body. -/
def DataBlockWriter.blockBytes (w : DataBlockWriter) (id nchunks : Nat) : List Nat :=
  le16 AKUMULI_VERSION ++ le16 (nchunks % 2 ^ 16) ++ le16 (w.ntail % 2 ^ 16) ++
    le64 id ++ w.body

/-- Run a sequence of `put` calls, collecting the returned statuses. -/
def runPuts (w : DataBlockWriter) : List (Nat × Nat) → DataBlockWriter × List AkuStatus
  | [] => (w, [])
  | (ts, v) :: rest =>
    let (st, w1) := w.put ts v
    let (wf, sts) := runPuts w1 rest
    (wf, st :: sts)

/-- Little-endian word of `n` bytes at offset `k` of a block (the header
accessors `get_block_version` / `get_main_size` / `get_total_size` /
`get_block_id`, lines 616-635). -/
def wordAt (k n : Nat) (block : List Nat) : Nat :=
  match readBytesLE n (block.drop k) with
  | some (v, _) => v
  | none => 0

/-- `get_main_size` (lines 621-624): `nchunks * CHUNK_SIZE`. -/
def get_main_size (block : List Nat) : Nat := wordAt 2 2 block * 16

/-- `get_total_size` (lines 626-630): `ntail + nchunks * CHUNK_SIZE`. -/
def get_total_size (block : List Nat) : Nat :=
  wordAt 4 2 block + wordAt 2 2 block * 16

/-- `DataBlockReader` state: the block, the unread suffix of its stream
(which starts at offset 14), the pre-decoded timestamps of the current
chunk, the read index, and the carried states of the value decoder
(`FcmStreamReader`: predictor, `iter_`, `flags_`) and of the timestamp
decoder (previous value, current run). -/
structure DataBlockReader where
  block : List Nat
  srest : List Nat
  read_buffer : List Nat
  read_index : Nat
  fcm : FcmPredictor
  iter : Nat
  flags : Nat
  ts_prev : Nat
  runLeft : Nat
  runDelta : Nat

/-- Constructed reader (lines 605-614). -/
def DataBlockReader.mk0 (block : List Nat) : DataBlockReader :=
  ⟨block, block.drop 14, [], 0, .init, 0, 0, 0, 0, 0⟩

/-- `DataBlockReader::next` (lines 637-658): inside the compressed portion,
pre-decode 16 timestamps on chunk entry, then decode one value per call
(`FcmStreamReader::next`, lines 285-302); inside the tail, read one raw
`(u64, f64)` pair; past the end return `AKU_ENO_DATA`.  `none` models an
out-of-data exception from the stream. -/
def DataBlockReader.next (r : DataBlockReader) :
    Option ((AkuStatus × Nat × Nat) × DataBlockReader) :=
  if r.read_index < get_main_size r.block then
    let step1 : Option DataBlockReader :=
      if r.read_index % 16 = 0 then
        match deltaRLE_decode 16 r.ts_prev r.runLeft r.runDelta r.srest with
        | some (tss, prev1, rl1, rd1, bs1) =>
          some { r with read_buffer := tss, ts_prev := prev1, runLeft := rl1,
                        runDelta := rd1, srest := bs1 }
        | none => none
      else some r
    match step1 with
    | none => none
    | some r1 =>
      let flagStep : Option (Nat × Nat × List Nat) :=
        if r1.iter % 2 = 0 then
          match r1.srest with
          | [] => none
          | fb :: bs => some (fb >>> 4, fb, bs)
        else some (r1.flags &&& 0xF, r1.flags, r1.srest)
      match flagStep with
      | none => none
      | some (flag, fl, bs1) =>
        match decode_value flag bs1 with
        | some (diff, bs2) =>
          let (bits, p1) := fcmUnstep r1.fcm diff
          some ((.success, r1.read_buffer.getD (r1.read_index % 16) 0, bits),
                { r1 with srest := bs2, fcm := p1, iter := r1.iter + 1,
                          flags := fl, read_index := r1.read_index + 1 })
        | none => none
  else
    if r.read_index < get_total_size r.block then
      match readBytesLE 8 r.srest with
      | some (ts, bs1) =>
        match readBytesLE 8 bs1 with
        | some (v, bs2) =>
          some ((.success, ts, v),
                { r with srest := bs2, read_index := r.read_index + 1 })
        | none => none
      | none => none
    else some ((.enodata, 0, 0), r)

/-- `DataBlockReader::nelements` (lines 660-662). -/
def DataBlockReader.nelements (r : DataBlockReader) : Nat :=
  get_total_size r.block

/-- Drive `next` a given number of times, collecting the outputs. -/
def readMany (r : DataBlockReader) :
    Nat → Option (List (AkuStatus × Nat × Nat) × DataBlockReader)
  | 0 => some ([], r)
  | n + 1 =>
    match r.next with
    | some (out, r1) =>
      match readMany r1 n with
      | some (outs, rf) => some (out :: outs, rf)
      | none => none
    | none => none

/-! ## Pure views of the block body (for the round-trip proofs) -/

/-- The byte stream a sequence of `c` flushed chunks produces: per chunk,
the delta-RLE batch of its 16 timestamps followed by the compressed pairs
of its 16 values, with the delta state and the predictor threaded. -/
def encChunks : Nat → Nat → FcmPredictor → List (Nat × Nat) → List Nat
  | 0, _, _, _ => []
  | c + 1, prev, p, S =>
    (deltaRLE_encode prev ((S.take 16).map Prod.fst)).1 ++
      (compressPairs p ((S.take 16).map Prod.snd)).1 ++
      encChunks c (deltaRLE_encode prev ((S.take 16).map Prod.fst)).2
        (compressPairs p ((S.take 16).map Prod.snd)).2 (S.drop 16)

/-- The carried encoder states after `c` chunks. -/
def encChunksState : Nat → Nat → FcmPredictor → List (Nat × Nat) → Nat × FcmPredictor
  | 0, prev, p, _ => (prev, p)
  | c + 1, prev, p, S =>
    encChunksState c (deltaRLE_encode prev ((S.take 16).map Prod.fst)).2
      (compressPairs p ((S.take 16).map Prod.snd)).2 (S.drop 16)

/-- Raw tail bytes: `(u64 ts, f64 value)` little-endian pairs. -/
def rawBytes : List (Nat × Nat) → List Nat
  | [] => []
  | (ts, v) :: rest => le64 ts ++ le64 v ++ rawBytes rest

/-- Number of `AKU_SUCCESS` statuses. -/
def countSuccess (sts : List AkuStatus) : Nat :=
  sts.countP fun st => decide (st = AkuStatus.success)

/-- True when no `put` of the run fails a chunk flush (an `AKU_EOVERFLOW`
return out of the `room_for_chunk() == true` branch, the code path guarded
by `assert(false)`). -/
def runPutsOk (w : DataBlockWriter) : List (Nat × Nat) → Bool
  | [] => true
  | (ts, v) :: rest =>
    (!(w.room_for_chunk && decide ((w.put ts v).1 = AkuStatus.eoverflow))) &&
      runPutsOk (w.put ts v).2 rest

/-- The light writer invariant used for the header-accounting claim: the
staging buffers track `write_index % 16`; a non-zero `ntail` means the
block is out of chunk room; a non-empty staging buffer means it is not. -/
def CInv (w : DataBlockWriter) : Prop :=
  w.ts_writebuf.length = w.write_index % 16 ∧
  w.val_writebuf.length = w.write_index % 16 ∧
  (w.ntail ≠ 0 → w.space_left < MARGIN) ∧
  (w.write_index % 16 ≠ 0 → ¬ w.space_left < MARGIN)

/-- The writer-state invariant tying a `DataBlockWriter` to the samples it
has accepted: `chunked` have been flushed as complete chunks, `staged` sit
in the write buffer, `tailed` were appended raw. -/
def WInv (w : DataBlockWriter) (cap : Nat)
    (chunked staged tailed : List (Nat × Nat)) : Prop :=
  w.cap = cap ∧
  chunked.length % 16 = 0 ∧
  staged.length < 16 ∧
  w.write_index = chunked.length + staged.length ∧
  w.ntail = tailed.length ∧
  w.ts_writebuf = staged.map Prod.fst ∧
  w.val_writebuf = staged.map Prod.snd ∧
  (tailed ≠ [] → staged = [] ∧ w.space_left < MARGIN) ∧
  (staged ≠ [] → ¬ w.space_left < MARGIN) ∧
  w.body = encChunks (chunked.length / 16) 0 .init chunked ++ rawBytes tailed ∧
  w.ts_prev = (encChunksState (chunked.length / 16) 0 .init chunked).1 ∧
  w.fcm = (encChunksState (chunked.length / 16) 0 .init chunked).2

/-! ## Bit-level helper lemmas -/

theorem U64_pos : 0 < U64 := by norm_num [U64]

theorem lor_shiftLeft_eq_add {a k : Nat} (b : Nat) (h : a < 2 ^ k) :
    a ||| (b <<< k) = a + b * 2 ^ k := by
  rw [Nat.shiftLeft_eq, Nat.mul_comm b (2 ^ k), Nat.lor_comm,
    ← Nat.mul_add_lt_is_or h b]
  ring

theorem length_leBytes (n : Nat) : ∀ x, (leBytes n x).length = n := by
  induction n with
  | zero => intro x; rfl
  | succ n ih => intro x; simp [leBytes, ih]

theorem readBytesLE_leBytes (n : Nat) (x : Nat) (rest : List Nat) :
    readBytesLE n (leBytes n x ++ rest) = some (x % 2 ^ (8 * n), rest) := by
  induction n generalizing x with
  | zero => simp [readBytesLE, leBytes, Nat.mod_one]
  | succ n ih =>
    have hih := ih (x >>> 8)
    simp only [leBytes, List.cons_append, readBytesLE, List.append_eq, hih]
    have h255 : x &&& 0xFF = x % 2 ^ 8 := by
      have h := Nat.and_pow_two_sub_one_eq_mod x 8
      norm_num at h
      exact h
    have hlt : x % 2 ^ 8 < 2 ^ 8 := Nat.mod_lt _ (by norm_num)
    rw [h255, lor_shiftLeft_eq_add _ hlt, Nat.shiftRight_eq_div_pow]
    have h8 : 8 * (n + 1) = 8 + 8 * n := by ring
    rw [h8, pow_add, Nat.mod_mul]
    ring_nf

theorem readBytesLE_leBytes_of_lt {n x : Nat} (h : x < 2 ^ (8 * n))
    (rest : List Nat) :
    readBytesLE n (leBytes n x ++ rest) = some (x, rest) := by
  rw [readBytesLE_leBytes, Nat.mod_eq_of_lt h]

theorem ctzAux_spec :
    ∀ fuel x, x ≠ 0 → x < 2 ^ fuel → 2 ^ ctzAux fuel x ∣ x ∧ ctzAux fuel x < fuel := by
  intro fuel
  induction fuel with
  | zero => intro x hx hlt; omega
  | succ f ih =>
    intro x hx hlt
    simp only [ctzAux]
    by_cases h1 : x &&& 1 = 1
    · simp [h1]
    · simp only [h1, if_false]
      rw [Nat.and_one_is_mod] at h1
      have hx2 : x % 2 = 0 := by omega
      have hs : x >>> 1 = x / 2 := by
        rw [Nat.shiftRight_eq_div_pow, pow_one]
      rw [hs]
      have hne : x / 2 ≠ 0 := by omega
      have hlt2 : x / 2 < 2 ^ f := by
        rw [pow_succ] at hlt; omega
      obtain ⟨hdvd, hfl⟩ := ih (x / 2) hne hlt2
      refine ⟨?_, by omega⟩
      obtain ⟨c, hc⟩ := hdvd
      refine ⟨c, ?_⟩
      set k := ctzAux f (x / 2) with hk
      calc x = 2 * (x / 2) := by omega
      _ = 2 * (2 ^ k * c) := by rw [hc]
      _ = 2 ^ (k + 1) * c := by rw [pow_succ]; ring

theorem sizeAux_spec :
    ∀ fuel x, x < 2 ^ fuel →
      x < 2 ^ sizeAux fuel x ∧ sizeAux fuel x ≤ fuel ∧ (x ≠ 0 → 1 ≤ sizeAux fuel x) := by
  intro fuel
  induction fuel with
  | zero => intro x hlt; simp only [sizeAux]; omega
  | succ f ih =>
    intro x hlt
    simp only [sizeAux]
    by_cases hz : x = 0
    · simp [hz]
    · simp only [hz, if_false]
      have hs : x >>> 1 = x / 2 := by
        rw [Nat.shiftRight_eq_div_pow, pow_one]
      rw [hs]
      have hlt2 : x / 2 < 2 ^ f := by rw [pow_succ] at hlt; omega
      obtain ⟨h1, h2, _⟩ := ih (x / 2) hlt2
      refine ⟨?_, by omega, fun _ => by omega⟩
      rw [pow_succ]
      omega

theorem and_seven {x : Nat} (h : x < 8) : x &&& 7 = x := by
  have h7 := Nat.and_pow_two_sub_one_eq_mod x 3
  norm_num at h7
  omega

theorem eight_lor {m : Nat} (h : m < 8) : 8 ||| m = m + 8 := by
  have h13 : (1 : Nat) <<< 3 = 8 := by decide
  have he := lor_shiftLeft_eq_add (a := m) (k := 3) 1 (by omega)
  rw [h13] at he
  rw [Nat.lor_comm, he]
  norm_num

/-! ## Correctness of `encode_value` / `decode_value` for the flags the
codec computes -/

theorem flagOf_zero : flagOf 0 = 0 := by decide

theorem encode_value_length (diff flag : Nat) :
    (encode_value diff flag).length = (flag &&& 7) + 1 := by
  simp [encode_value, length_leBytes]

/-- Branch facts about the flag chosen for a non-zero 64-bit `diff`:
either the high-byte form (bit 3 set, trailing zeros win) or the low-byte
form; in both cases the value fits the stored bytes after the shift. -/
theorem decode_encode_value (diff : Nat) (h : diff < U64) (rest : List Nat) :
    decode_value (flagOf diff) (encode_value diff (flagOf diff) ++ rest) =
      some (diff, rest) := by
  have hU : diff < 2 ^ 64 := h
  by_cases hz : diff = 0
  · subst hz
    rw [flagOf_zero]
    show decode_value 0 ([0] ++ rest) = some (0, rest)
    simp [decode_value, readBytesLE, U64]
  · have hctz := ctzAux_spec 64 diff hz hU
    have hsize := sizeAux_spec 64 diff hU
    set tz := ctzAux 64 diff with htzdef
    set sz := sizeAux 64 diff with hszdef
    obtain ⟨htzdvd, htzlt⟩ := hctz
    obtain ⟨hszgt, hszle, hszpos⟩ := hsize
    have hsz1 : 1 ≤ sz := hszpos hz
    have hlz : clz64 diff = 64 - sz := rfl
    have hflagOf : flagOf diff =
        if tz > 64 - sz then (7 - tz / 8) + 8 else (7 - (64 - sz) / 8) &&& 7 := by
      simp only [flagOf, hz, ne_eq, not_false_eq_true, if_true, ctz64, clz64,
        ← htzdef, ← hszdef]
      by_cases hcmp : tz > 64 - sz
      · simp only [hcmp, if_true]
        have htz8 : tz / 8 ≤ 7 := by omega
        have hpos : 8 - tz / 8 > 0 := by omega
        simp only [hpos, if_true]
        have hand : (8 - tz / 8 - 1) &&& 7 = 7 - tz / 8 := by
          rw [and_seven (by omega)]; omega
        rw [hand, eight_lor (by omega)]
      · simp only [hcmp, if_false]
        have hlz8 : (64 - sz) / 8 ≤ 7 := by omega
        have hpos : 8 - (64 - sz) / 8 > 0 := by omega
        simp only [hpos, if_true]
        congr 1
        omega
    by_cases hcmp : tz > 64 - sz
    · -- high bytes stored: flag = nb + 8 with nb = 7 - tz/8
      rw [hflagOf, if_pos hcmp]
      set nb := 7 - tz / 8 with hnb
      have hnb7 : nb ≤ 7 := by omega
      have hand : (nb + 8) &&& 7 = nb := by
        have h7 := Nat.and_pow_two_sub_one_eq_mod (nb + 8) 3
        norm_num at h7
        omega
      have hshr : (nb + 8) >>> 3 = 1 := by
        rw [Nat.shiftRight_eq_div_pow]
        norm_num
        omega
      have hnshift : (64 - (nb + 1) * 8) * ((nb + 8) >>> 3) = 8 * (tz / 8) := by
        rw [hshr]; omega
      have htzle : 8 * (tz / 8) ≤ tz := by omega
      have hdvd8 : 2 ^ (8 * (tz / 8)) ∣ diff :=
        dvd_trans (pow_dvd_pow 2 htzle) htzdvd
      have hfit : diff >>> (8 * (tz / 8)) < 2 ^ (8 * (nb + 1)) := by
        rw [Nat.shiftRight_eq_div_pow]
        rw [Nat.div_lt_iff_lt_mul (Nat.pos_pow_of_pos _ (by norm_num))]
        calc diff < 2 ^ 64 := hU
        _ ≤ 2 ^ (8 * (nb + 1)) * 2 ^ (8 * (tz / 8)) := by
              rw [← pow_add]
              exact Nat.pow_le_pow_right (by norm_num) (by omega)
      simp only [encode_value, decode_value, hand, hnshift,
        readBytesLE_leBytes_of_lt hfit]
      rw [Nat.shiftLeft_eq, Nat.shiftRight_eq_div_pow,
        Nat.div_mul_cancel hdvd8, Nat.mod_eq_of_lt h]
    · -- low bytes stored: flag = nb = 7 - (64 - sz)/8
      rw [hflagOf, if_neg hcmp]
      set nb := 7 - (64 - sz) / 8 with hnb
      have hnb7 : nb ≤ 7 := by omega
      rw [and_seven (by omega)]
      have hand : nb &&& 7 = nb := and_seven (by omega)
      have hshr : nb >>> 3 = 0 := by
        rw [Nat.shiftRight_eq_div_pow]
        norm_num
        omega
      have hnshift : (64 - (nb + 1) * 8) * (nb >>> 3) = 0 := by
        rw [hshr]; ring
      have hfit : diff >>> 0 < 2 ^ (8 * (nb + 1)) := by
        rw [Nat.shiftRight_zero]
        calc diff < 2 ^ sz := hszgt
        _ ≤ 2 ^ (8 * (nb + 1)) := Nat.pow_le_pow_right (by norm_num) (by omega)
      simp only [encode_value, decode_value, hand, hnshift,
        readBytesLE_leBytes_of_lt hfit]
      rw [Nat.shiftRight_zero, Nat.shiftLeft_zero, Nat.mod_eq_of_lt h]

/-! ## Predictor synchronisation and the paired-flag protocol -/

theorem getD_replicate_zero (n : Nat) : ∀ i : Nat,
    (List.replicate n (0 : Nat)).getD i 0 = 0 := by
  induction n with
  | zero => intro i; simp [List.getD]
  | succ n ih =>
    intro i
    cases i with
    | zero => simp [List.replicate_succ]
    | succ i => simp only [List.replicate_succ, List.getD_cons_succ, ih]

theorem getD_set_cases (l : List Nat) : ∀ (j v i : Nat),
    (l.set j v).getD i 0 = v ∨ (l.set j v).getD i 0 = l.getD i 0 := by
  induction l with
  | nil => intro j v i; simp [List.set]
  | cons a l ih =>
    intro j v i
    cases j with
    | zero =>
      cases i with
      | zero => left; simp
      | succ i => right; simp
    | succ j =>
      cases i with
      | zero => right; simp
      | succ i =>
        simp only [List.set_cons_succ, List.getD_cons_succ]
        exact ih j v i

theorem wf_init : FcmPredictor.Wf .init := by
  intro i
  simp only [FcmPredictor.init, getD_replicate_zero]
  exact U64_pos

theorem wf_update {p : FcmPredictor} (hp : p.Wf) {v : Nat} (hv : v < U64) :
    (p.update v).Wf := by
  intro i
  rcases getD_set_cases p.table p.last_hash v i with h | h
  · rw [FcmPredictor.update] at *
    simp only [h]
    exact hv
  · rw [FcmPredictor.update] at *
    simp only [h]
    exact hp i

theorem xor_lt_U64 {a b : Nat} (ha : a < U64) (hb : b < U64) : a ^^^ b < U64 :=
  Nat.xor_lt_two_pow ha hb

theorem xor_unstep (a b : Nat) : b ^^^ (a ^^^ b) = a := by
  rw [Nat.xor_comm a b, ← Nat.xor_assoc, Nat.xor_self, Nat.zero_xor]

theorem eight_lor_and_lt (m : Nat) : 8 ||| (m &&& 7) < 16 := by
  have h : m &&& 7 ≤ 7 := Nat.and_le_right
  rw [eight_lor (by omega)]
  omega

theorem and_seven_lt (m : Nat) : m &&& 7 < 16 := by
  have h : m &&& 7 ≤ 7 := Nat.and_le_right
  omega

theorem flagOf_lt (diff : Nat) : flagOf diff < 16 := by
  by_cases hz : diff = 0
  · subst hz; decide
  · simp only [flagOf, hz, ne_eq, not_false_eq_true, if_true]
    split
    · exact eight_lor_and_lt _
    · exact and_seven_lt _

theorem hi_nibble (f1 : Nat) {f2 : Nat} (h2 : f2 < 16) :
    ((f1 <<< 4) ||| f2) >>> 4 = f1 := by
  rw [Nat.lor_comm, lor_shiftLeft_eq_add f1 h2, Nat.shiftRight_eq_div_pow]
  norm_num
  omega

theorem hi_nibble_pure (f1 : Nat) : (f1 <<< 4) >>> 4 = f1 := by
  rw [Nat.shiftLeft_eq, Nat.shiftRight_eq_div_pow]
  exact Nat.mul_div_cancel f1 (by norm_num)

theorem lo_nibble (f1 : Nat) {f2 : Nat} (h2 : f2 < 16) :
    ((f1 <<< 4) ||| f2) &&& 0xF = f2 := by
  rw [Nat.lor_comm, lor_shiftLeft_eq_add f1 h2]
  have h := Nat.and_pow_two_sub_one_eq_mod (f2 + f1 * 2 ^ 4) 4
  norm_num at h ⊢
  omega

theorem encode_value_zero : encode_value 0 0 = [0] := by decide

/-- Decoding inverts encoding pair by pair, with a synchronised predictor;
an odd batch leaves the one-byte pad of `commit` unconsumed. -/
theorem decompressPairs_compressPairs :
    ∀ (vs : List Nat) (p : FcmPredictor), p.Wf → (∀ v ∈ vs, v < U64) → ∀ rest,
      decompressPairs p vs.length ((compressPairs p vs).1 ++ rest) =
        some (vs, (compressPairs p vs).2,
          if vs.length % 2 = 0 then rest else 0 :: rest)
  | [], p, _, _, rest => by simp [compressPairs, decompressPairs]
  | [v], p, hp, hv, rest => by
    have hvU : v < U64 := hv v (List.mem_cons_self v [])
    have hdU : v ^^^ p.predict_next < U64 := xor_lt_U64 hvU (hp _)
    simp only [compressPairs, fcmStep, decompressPairs, List.cons_append,
      List.append_assoc, encode_value_zero, List.singleton_append,
      hi_nibble_pure, decode_encode_value _ hdU, fcmUnstep, xor_unstep,
      List.length_singleton]
    simp
  | v1 :: v2 :: vr, p, hp, hv, rest => by
    have hv1 : v1 < U64 := hv v1 (by simp)
    have hv2 : v2 < U64 := hv v2 (by simp)
    have hd1 : v1 ^^^ p.predict_next < U64 := xor_lt_U64 hv1 (hp _)
    have hp1 : (p.update v1).Wf := wf_update hp hv1
    have hd2 : v2 ^^^ (p.update v1).predict_next < U64 := xor_lt_U64 hv2 (hp1 _)
    have hp2 : ((p.update v1).update v2).Wf := wf_update hp1 hv2
    have hvr : ∀ v ∈ vr, v < U64 := fun v hm => hv v (by simp [hm])
    have ih := decompressPairs_compressPairs vr ((p.update v1).update v2) hp2 hvr rest
    simp only [compressPairs, fcmStep, decompressPairs, List.cons_append,
      List.append_assoc, List.length_cons,
      hi_nibble _ (flagOf_lt _), lo_nibble _ (flagOf_lt _),
      decode_encode_value _ hd1, decode_encode_value _ hd2,
      fcmUnstep, xor_unstep, ih]
    have hpar : (vr.length + 1 + 1) % 2 = vr.length % 2 := by omega
    simp only [hpar]

/-! ## Claim theorems: double codec -/

/-- C1: for every finite sequence `V` of doubles (as 64-bit patterns — the
codec never interprets them, so NaN payloads and `-0.0` are just bit
patterns), decoding the output of the predictive double codec with the
count `|V|` supplied returns `V` bit for bit; odd lengths included. -/
theorem C1_double_codec_roundtrip (V : List Nat) (h : ∀ v ∈ V, v < U64) :
    decompress_doubles V.length (compress_doubles V) = some V := by
  have hrt := decompressPairs_compressPairs V .init wf_init h []
  rw [List.append_nil] at hrt
  simp only [decompress_doubles, compress_doubles, hrt]

theorem C1_double_codec_roundtrip_witness :
    (∀ v ∈ [(1 : Nat), 0x8000000000000000, 0xFFF8000000000001, 0, 12345678901234567890],
        v < U64) ∧
      decompress_doubles 5
        (compress_doubles
          [1, 0x8000000000000000, 0xFFF8000000000001, 0, 12345678901234567890]) =
        some [1, 0x8000000000000000, 0xFFF8000000000001, 0, 12345678901234567890] :=
  ⟨by decide,
    C1_double_codec_roundtrip
      [1, 0x8000000000000000, 0xFFF8000000000001, 0, 12345678901234567890]
      (by decide)⟩

/-- C8: the 4-bit flag chosen for a value: with `tz`/`lz` the
trailing/leading zero counts of `diff` (64 when `diff = 0`), the flag is
`8 ||| (nbytes &&& 7)` with `nbytes = 8 - tz/8 - 1` (truncated at 0, i.e.
`max (0, 8 - tz/8 - 1)`) when `tz > lz` (high bytes stored, bit 3 set),
else `nbytes &&& 7` with `nbytes = 8 - lz/8 - 1`; and `flag &&& 7` is the
stored byte count minus one. -/
theorem C8_flag_formula (diff : Nat) (h : diff < U64) :
    flagOf diff =
        (if (if diff = 0 then 64 else clz64 diff) <
            (if diff = 0 then 64 else ctz64 diff)
         then 8 ||| ((8 - (if diff = 0 then 64 else ctz64 diff) / 8 - 1) &&& 7)
         else (8 - (if diff = 0 then 64 else clz64 diff) / 8 - 1) &&& 7) ∧
      (encode_value diff (flagOf diff)).length = (flagOf diff &&& 7) + 1 ∧
      (flagOf diff) >>> 3 =
        (if (if diff = 0 then 64 else clz64 diff) <
            (if diff = 0 then 64 else ctz64 diff) then 1 else 0) := by
  refine ⟨?_, encode_value_length _ _, ?_⟩ <;>
  · by_cases hz : diff = 0
    · subst hz; decide
    · have hU : diff < 2 ^ 64 := h
      have hctz := ctzAux_spec 64 diff hz hU
      have hsize := sizeAux_spec 64 diff hU
      obtain ⟨-, htzlt⟩ := hctz
      obtain ⟨-, hszle, hszpos⟩ := hsize
      have hsz1 : 1 ≤ sizeAux 64 diff := hszpos hz
      simp only [flagOf, hz, ne_eq, not_false_eq_true, if_true, if_false,
        ctz64, clz64, gt_iff_lt]
      by_cases hcmp : 64 - sizeAux 64 diff < ctzAux 64 diff
      · simp only [hcmp, if_true]
        have hpos : 8 - ctzAux 64 diff / 8 > 0 := by omega
        simp only [hpos, if_true]
        try rfl
        try (rw [and_seven (by omega), eight_lor (by omega),
              Nat.shiftRight_eq_div_pow]
             try norm_num
             try omega)
      · simp only [hcmp, if_false]
        have hpos : 8 - (64 - sizeAux 64 diff) / 8 > 0 := by omega
        simp only [hpos, if_true]
        try rfl
        try (rw [and_seven (by omega), Nat.shiftRight_eq_div_pow]
             try norm_num
             try omega)

theorem C8_flag_formula_witness :
    (0x3FF0000000000000 : Nat) < U64 ∧
      (flagOf 0x3FF0000000000000 =
          (if (if (0x3FF0000000000000 : Nat) = 0 then 64 else clz64 0x3FF0000000000000) <
              (if (0x3FF0000000000000 : Nat) = 0 then 64 else ctz64 0x3FF0000000000000)
           then 8 |||
              ((8 - (if (0x3FF0000000000000 : Nat) = 0 then 64
                     else ctz64 0x3FF0000000000000) / 8 - 1) &&& 7)
           else (8 - (if (0x3FF0000000000000 : Nat) = 0 then 64
                      else clz64 0x3FF0000000000000) / 8 - 1) &&& 7) ∧
        (encode_value 0x3FF0000000000000 (flagOf 0x3FF0000000000000)).length =
          (flagOf 0x3FF0000000000000 &&& 7) + 1 ∧
        (flagOf 0x3FF0000000000000) >>> 3 =
          (if (if (0x3FF0000000000000 : Nat) = 0 then 64 else clz64 0x3FF0000000000000) <
              (if (0x3FF0000000000000 : Nat) = 0 then 64
               else ctz64 0x3FF0000000000000) then 1 else 0)) :=
  ⟨by decide, C8_flag_formula 0x3FF0000000000000 (by decide)⟩

/-! ## Varint and delta-RLE round trip -/

theorem mod128_lt (x : Nat) : x % 128 < 2 ^ 7 := by
  norm_num
  exact Nat.mod_lt _ (by norm_num)

theorem readVarint_varintAux : ∀ (fuel x : Nat), x < 2 ^ (7 * (fuel + 1)) →
    ∀ rest : List Nat, readVarint (varintAux (fuel + 1) x ++ rest) = some (x, rest) := by
  intro fuel
  induction fuel with
  | zero =>
    intro x hx rest
    have hlt : x < 128 := by norm_num at hx; omega
    simp [varintAux, hlt, readVarint]
  | succ f ih =>
    intro x hx rest
    by_cases hlt : x < 128
    · simp [varintAux, hlt, readVarint]
    · have hunf : varintAux (f + 1 + 1) x =
          ((x &&& 127) ||| 128) :: varintAux (f + 1) (x >>> 7) := by
        simp [varintAux, hlt]
      have h127 : x &&& 127 = x % 128 := by
        have h := Nat.and_pow_two_sub_one_eq_mod x 7
        norm_num at h
        exact h
      have hor := lor_shiftLeft_eq_add 1 (mod128_lt x)
      have hb : (x &&& 127) ||| 128 = x % 128 + 128 := by
        rw [h127]
        have h128 : (1 : Nat) <<< 7 = 128 := by decide
        nth_rewrite 2 [← h128]
        rw [hor]
        norm_num
      have hs7 : x >>> 7 = x / 128 := by
        rw [Nat.shiftRight_eq_div_pow]
      have hxf : x >>> 7 < 2 ^ (7 * (f + 1)) := by
        rw [hs7]
        have hmul : (2 : Nat) ^ (7 * (f + 1 + 1)) = 2 ^ (7 * (f + 1)) * 128 := by
          rw [show 7 * (f + 1 + 1) = 7 * (f + 1) + 7 by ring, pow_add]
          norm_num
        rw [hmul] at hx
        omega
      have hih := ih (x >>> 7) hxf rest
      have hand : (x % 128 + 128) &&& 127 = x % 128 := by
        have h := Nat.and_pow_two_sub_one_eq_mod (x % 128 + 128) 7
        norm_num at h
        rw [h]
        try omega
      have hor2 := lor_shiftLeft_eq_add (x / 128) (mod128_lt x)
      have hfin : x % 128 ||| (x / 128) <<< 7 = x := by
        rw [hor2]
        norm_num
        omega
      rw [hunf, hb]
      simp only [List.cons_append, List.append_eq, readVarint,
        show ¬ (x % 128 + 128 < 128) by omega, if_false, hih]
      rw [hand, hs7, hfin]

theorem readVarint_varint (x : Nat) (h : x < 2 ^ 70) (rest : List Nat) :
    readVarint (varint x ++ rest) = some (x, rest) :=
  readVarint_varintAux 9 x h rest

theorem varint_ne_nil (x : Nat) : varint x ≠ [] := by
  simp only [varint, varintAux]
  split <;> simp

theorem rleRuns_join : ∀ xs : List Nat, runsDeltas (rleRuns xs) = xs := by
  intro xs
  induction xs with
  | nil => rfl
  | cons x xs ih =>
    simp only [rleRuns]
    cases h : rleRuns xs with
    | nil =>
      rw [h] at ih
      simp only [runsDeltas] at ih ⊢
      simp at ih
      simp [← ih]
    | cons r rs =>
      obtain ⟨n, y⟩ := r
      rw [h] at ih
      by_cases hxy : x = y
      · simp only [hxy, if_true]
        simp only [runsDeltas, List.map_cons, List.flatten_cons] at ih ⊢
        rw [List.replicate_succ, List.cons_append, ih]
      · simp only [hxy, if_false]
        simp only [runsDeltas, List.map_cons, List.flatten_cons] at ih ⊢
        rw [ih]
        simp [List.replicate_succ]

theorem rleRuns_counts_pos : ∀ (xs : List Nat) (r : Nat × Nat), r ∈ rleRuns xs → 1 ≤ r.1 := by
  intro xs
  induction xs with
  | nil => intro r hr; simp [rleRuns] at hr
  | cons x xs ih =>
    intro r hr
    simp only [rleRuns] at hr
    cases h : rleRuns xs with
    | nil =>
      rw [h] at hr
      simp at hr
      simp [hr]
    | cons s rs =>
      obtain ⟨n, y⟩ := s
      rw [h] at hr
      have hs : (n, y) ∈ rleRuns xs := by rw [h]; simp
      by_cases hxy : x = y
      · simp only [hxy, if_true, List.mem_cons] at hr
        rcases hr with hr | hr
        · have := ih (n, y) hs
          simp [hr]
        · exact ih r (by rw [h]; simp [hr])
      · simp only [hxy, if_false, List.mem_cons] at hr
        rcases hr with hr | hr | hr
        · simp [hr]
        · exact ih r (by rw [h, hr]; simp)
        · exact ih r (by rw [h]; simp [hr])

theorem deltasFrom_length (prev : Nat) : ∀ xs : List Nat,
    (deltasFrom prev xs).length = xs.length := by
  intro xs
  induction xs generalizing prev with
  | nil => rfl
  | cons x xs ih => simp [deltasFrom, ih]

theorem wrapSub_add {prev x : Nat} (hp : prev < U64) (hx : x < U64) :
    (prev + wrapSub x prev) % U64 = x := by
  simp only [wrapSub, U64] at *
  omega

theorem applyDeltas_deltasFrom {prev : Nat} (hp : prev < U64) :
    ∀ xs : List Nat, (∀ x ∈ xs, x < U64) →
      applyDeltas prev (deltasFrom prev xs) = xs := by
  intro xs
  induction xs generalizing prev with
  | nil => intro _; rfl
  | cons x xs ih =>
    intro hxs
    have hx : x < U64 := hxs x (by simp)
    simp only [deltasFrom, applyDeltas, wrapSub_add hp hx]
    rw [ih hx (fun y hy => hxs y (by simp [hy]))]

theorem applyDeltas_lt {prev : Nat} (hp : prev < U64) :
    ∀ ds : List Nat, ∀ v ∈ applyDeltas prev ds, v < U64 := by
  intro ds
  induction ds generalizing prev with
  | nil => intro v hv; simp [applyDeltas] at hv
  | cons d ds ih =>
    intro v hv
    simp only [applyDeltas, List.mem_cons] at hv
    rcases hv with hv | hv
    · rw [hv]; exact Nat.mod_lt _ U64_pos
    · exact ih (Nat.mod_lt _ U64_pos) v hv

theorem applyDeltas_append (prev : Nat) : ∀ l1 l2 : List Nat,
    applyDeltas prev (l1 ++ l2) =
      applyDeltas prev l1 ++ applyDeltas ((applyDeltas prev l1).getLastD prev) l2 := by
  intro l1
  induction l1 generalizing prev with
  | nil => intro l2; simp [applyDeltas]
  | cons d ds ih =>
    intro l2
    simp only [List.cons_append, applyDeltas, List.append_eq, ih, List.getLastD_cons]

theorem getLastD_append {α : Type} (l1 l2 : List α) (p : α) :
    (l1 ++ l2).getLastD p = l2.getLastD (l1.getLastD p) := by
  induction l1 generalizing p with
  | nil => rfl
  | cons a l1 ih => rw [List.cons_append, List.getLastD_cons, List.getLastD_cons, ih]

/-- Consuming one run from inside the reader: `n` repetitions left, no bytes
read, values stepped by the current delta. -/
theorem deltaRLE_decode_inrun : ∀ (n c prev d : Nat) (bs : List Nat),
    deltaRLE_decode (n + c) prev n d bs =
      match deltaRLE_decode c ((applyDeltas prev (List.replicate n d)).getLastD prev) 0 d bs with
      | some (vs, p, rl, rd, rest) =>
          some (applyDeltas prev (List.replicate n d) ++ vs, p, rl, rd, rest)
      | none => none := by
  intro n
  induction n with
  | zero =>
    intro c prev d bs
    simp only [Nat.zero_add, List.replicate_zero, applyDeltas, List.getLastD_nil,
      List.nil_append]
    cases h : deltaRLE_decode c prev 0 d bs with
    | none => rfl
    | some out => obtain ⟨vs, p, rl, rd, rest⟩ := out; rfl
  | succ n ih =>
    intro c prev d bs
    have harg : n + 1 + c = (n + c) + 1 := by omega
    rw [harg]
    simp only [deltaRLE_decode, ih, List.replicate_succ, applyDeltas,
      List.getLastD_cons]
    cases deltaRLE_decode c
        ((applyDeltas ((prev + d) % U64) (List.replicate n d)).getLastD ((prev + d) % U64)) 0 d bs with
    | none => rfl
    | some out => obtain ⟨vs, p, rl, rd, rest⟩ := out; rfl

/-- Every run value of `rleRuns` is drawn from the input list. -/
theorem rleRuns_mem_snd : ∀ (xs : List Nat) (r : Nat × Nat), r ∈ rleRuns xs → r.2 ∈ xs := by
  intro xs
  induction xs with
  | nil => intro r hr; simp [rleRuns] at hr
  | cons x xs ih =>
    intro r hr
    simp only [rleRuns] at hr
    cases h : rleRuns xs with
    | nil =>
      rw [h] at hr
      simp at hr
      simp [hr]
    | cons s rs =>
      obtain ⟨n, y⟩ := s
      rw [h] at hr
      by_cases hxy : x = y
      · simp only [hxy, if_true, List.mem_cons] at hr
        rcases hr with hr | hr
        · have hmem : (n, y) ∈ rleRuns xs := by rw [h]; simp
          have hy := ih (n, y) hmem
          rw [hr]
          exact List.mem_cons_of_mem x hy
        · exact List.mem_cons_of_mem x (ih r (by rw [h]; simp [hr]))
      · simp only [hxy, if_false, List.mem_cons] at hr
        rcases hr with hr | hr | hr
        · rw [hr]; simp
        · exact List.mem_cons_of_mem x (ih r (by rw [h, hr]; simp))
        · exact List.mem_cons_of_mem x (ih r (by rw [h]; simp [hr]))

/-- The run counts of `rleRuns` sum to the input length. -/
theorem rleRuns_sum (xs : List Nat) :
    ((rleRuns xs).map Prod.fst).sum = xs.length := by
  have hlen := congrArg List.length (rleRuns_join xs)
  simp only [runsDeltas, List.length_flatten, List.map_map] at hlen
  rw [← hlen]
  congr 1
  simp [Function.comp]

theorem deltasFrom_lt (prev : Nat) : ∀ (xs : List Nat) (d : Nat),
    d ∈ deltasFrom prev xs → d < U64 := by
  intro xs
  induction xs generalizing prev with
  | nil => intro d hd; simp [deltasFrom] at hd
  | cons x xs ih =>
    intro d hd
    simp only [deltasFrom, List.mem_cons] at hd
    rcases hd with hd | hd
    · rw [hd, wrapSub]
      exact Nat.mod_lt _ U64_pos
    · exact ih x d hd

/-- Consuming a whole list of runs (each of positive count, all numbers
within varint range) from a run-boundary state. -/
theorem deltaRLE_decode_runs : ∀ (runs : List (Nat × Nat)) (prev rd0 : Nat) (rest : List Nat),
    (∀ r ∈ runs, 1 ≤ r.1 ∧ r.1 < 2 ^ 70 ∧ r.2 < 2 ^ 70) →
    deltaRLE_decode ((runs.map Prod.fst).sum) prev 0 rd0 (runsBytes runs ++ rest) =
      some (applyDeltas prev (runsDeltas runs),
            (applyDeltas prev (runsDeltas runs)).getLastD prev,
            0, (runs.map Prod.snd).getLastD rd0, rest) := by
  intro runs
  induction runs with
  | nil =>
    intro prev rd0 rest _
    simp [runsBytes, runsDeltas, applyDeltas, deltaRLE_decode]
  | cons r rs ih =>
    intro prev rd0 rest hpos
    obtain ⟨n, d⟩ := r
    obtain ⟨hn, hn70, hd70⟩ := hpos (n, d) (by simp)
    simp only [runsBytes, runsDeltas, List.map_cons, List.flatten_cons,
      List.sum_cons, List.append_assoc] at *
    have hcount : n + (rs.map Prod.fst).sum = ((n - 1) + (rs.map Prod.fst).sum) + 1 := by
      omega
    rw [hcount]
    simp only [deltaRLE_decode,
      readVarint_varint n hn70, readVarint_varint d hd70,
      show n ≠ 0 by omega, if_false]
    have hinrun := deltaRLE_decode_inrun (n - 1) ((rs.map Prod.fst).sum)
      ((prev + d) % U64) d (runsBytes rs ++ rest)
    simp only [runsBytes] at hinrun
    rw [hinrun, ih ((applyDeltas ((prev + d) % U64) (List.replicate (n - 1) d)).getLastD ((prev + d) % U64)) d rest
      (fun r hr => hpos r (by simp [hr]))]
    have hrep : List.replicate n d = d :: List.replicate (n - 1) d := by
      cases n with
      | zero => omega
      | succ m => simp [List.replicate_succ]
    rw [hrep]
    simp only [applyDeltas, List.getLastD_cons, List.append_eq]
    rw [applyDeltas_append, getLastD_append]

/-- Round trip of the spec-modelled delta-RLE codec: decoding
`xs.length` values from a fresh-run state inverts a batch encode, leaves
`rest` unconsumed, and ends at a run boundary. -/
theorem deltaRLE_roundtrip (xs : List Nat) {prev : Nat} (hp : prev < U64)
    (hxs : ∀ x ∈ xs, x < U64) (hlen : xs.length < U64) (rd0 : Nat) (rest : List Nat) :
    deltaRLE_decode xs.length prev 0 rd0 ((deltaRLE_encode prev xs).1 ++ rest) =
      some (xs, xs.getLastD prev, 0,
        ((rleRuns (deltasFrom prev xs)).map Prod.snd).getLastD rd0, rest) := by
  have hjoin := rleRuns_join (deltasFrom prev xs)
  have hsum : ((rleRuns (deltasFrom prev xs)).map Prod.fst).sum = xs.length := by
    rw [rleRuns_sum, deltasFrom_length]
  have happ : applyDeltas prev (runsDeltas (rleRuns (deltasFrom prev xs))) = xs := by
    rw [hjoin]
    exact applyDeltas_deltasFrom hp xs hxs
  have hbounds : ∀ r ∈ rleRuns (deltasFrom prev xs), 1 ≤ r.1 ∧ r.1 < 2 ^ 70 ∧ r.2 < 2 ^ 70 := by
    intro r hr
    refine ⟨rleRuns_counts_pos _ r hr, ?_, ?_⟩
    · have hmem : r.1 ∈ (rleRuns (deltasFrom prev xs)).map Prod.fst :=
        List.mem_map_of_mem Prod.fst hr
      have hle : r.1 ≤ ((rleRuns (deltasFrom prev xs)).map Prod.fst).sum :=
        List.single_le_sum (fun a _ => Nat.zero_le a) r.1 hmem
      rw [hsum] at hle
      have hU : U64 < 2 ^ 70 := by norm_num [U64]
      omega
    · have hd := rleRuns_mem_snd _ r hr
      have := deltasFrom_lt prev xs r.2 hd
      have hU : U64 < 2 ^ 70 := by norm_num [U64]
      omega
  have hrt := deltaRLE_decode_runs (rleRuns (deltasFrom prev xs)) prev rd0 rest hbounds
  rw [hsum, happ] at hrt
  have hbytes : (deltaRLE_encode prev xs).1 = runsBytes (rleRuns (deltasFrom prev xs)) := rfl
  rw [hbytes, hrt]

/-! ## Minimum/maximum folds of `encode_chunk` -/

theorem foldl_min_spec : ∀ (ts : List Nat) (init : Nat),
    (ts.foldl min init = init ∨ ts.foldl min init ∈ ts) ∧
      ts.foldl min init ≤ init ∧ ∀ t ∈ ts, ts.foldl min init ≤ t := by
  intro ts
  induction ts with
  | nil => intro init; simp
  | cons t ts ih =>
    intro init
    simp only [List.foldl_cons]
    obtain ⟨hmem, hle, hall⟩ := ih (min init t)
    refine ⟨?_, ?_, ?_⟩
    · rcases hmem with hmem | hmem
      · rcases Nat.le_total init t with hit | hit
        · left; rw [hmem]; omega
        · right; rw [hmem]; simp; omega
      · right; simp [hmem]
    · calc ts.foldl min (min init t) ≤ min init t := hle
      _ ≤ init := by omega
    · intro u hu
      simp only [List.mem_cons] at hu
      rcases hu with hu | hu
      · rw [hu]
        calc ts.foldl min (min init t) ≤ min init t := hle
        _ ≤ t := by omega
      · exact hall u hu

theorem foldl_max_spec : ∀ (ts : List Nat) (init : Nat),
    (ts.foldl max init = init ∨ ts.foldl max init ∈ ts) ∧
      init ≤ ts.foldl max init ∧ ∀ t ∈ ts, t ≤ ts.foldl max init := by
  intro ts
  induction ts with
  | nil => intro init; simp
  | cons t ts ih =>
    intro init
    simp only [List.foldl_cons]
    obtain ⟨hmem, hle, hall⟩ := ih (max init t)
    refine ⟨?_, ?_, ?_⟩
    · rcases hmem with hmem | hmem
      · rcases Nat.le_total init t with hit | hit
        · right; rw [hmem]; simp; omega
        · left; rw [hmem]; omega
      · right; simp [hmem]
    · calc init ≤ max init t := by omega
      _ ≤ ts.foldl max (max init t) := hle
    · intro u hu
      simp only [List.mem_cons] at hu
      rcases hu with hu | hu
      · rw [hu]
        calc t ≤ max init t := by omega
        _ ≤ ts.foldl max (max init t) := hle
      · exact hall u hu

/-! ## Claim theorems: chunk codec -/

/-- C10: encoding a chunk whose arrays are empty sets the sentinel range
`ts_begin = AKU_MAX_TIMESTAMP`, `ts_end = AKU_MIN_TIMESTAMP`, so
`ts_end < ts_begin` — no minimum or maximum of an empty set is taken. -/
theorem C10_empty_chunk (U : UncompressedChunk) (h : U.timestamps = []) :
    (encode_chunk U).2.2.1 = AKU_MAX_TIMESTAMP ∧
      (encode_chunk U).2.2.2 = AKU_MIN_TIMESTAMP ∧
      (encode_chunk U).2.2.2 < (encode_chunk U).2.2.1 := by
  simp [encode_chunk, h, AKU_MAX_TIMESTAMP, AKU_MIN_TIMESTAMP, U64]

theorem C10_empty_chunk_witness :
    (UncompressedChunk.mk [] [] []).timestamps = [] ∧
      ((encode_chunk ⟨[], [], []⟩).2.2.1 = AKU_MAX_TIMESTAMP ∧
        (encode_chunk ⟨[], [], []⟩).2.2.2 = AKU_MIN_TIMESTAMP ∧
        (encode_chunk ⟨[], [], []⟩).2.2.2 < (encode_chunk ⟨[], [], []⟩).2.2.1) :=
  ⟨rfl, C10_empty_chunk ⟨[], [], []⟩ rfl⟩

/-- C2: the chunk codec round-trips: decoding the encoded bytes with
`nelements` equal to the (common, non-zero) array length reconstructs the
chunk exactly, and the returned range is the minimum resp. maximum of the
timestamps (stated as: a member that bounds all members). -/
theorem C2_chunk_roundtrip (U : UncompressedChunk)
    (hpid : ∀ x ∈ U.paramids, x < U64) (hts : ∀ x ∈ U.timestamps, x < U64)
    (hval : ∀ x ∈ U.values, x < U64)
    (hlen2 : U.timestamps.length = U.paramids.length)
    (hlen3 : U.values.length = U.paramids.length)
    (hne : U.paramids ≠ []) (hsmall : U.paramids.length < 2 ^ 32) :
    decode_chunk (encode_chunk U).1 U.paramids.length = some U ∧
      (encode_chunk U).2.2.1 ∈ U.timestamps ∧
      (∀ t ∈ U.timestamps, (encode_chunk U).2.2.1 ≤ t) ∧
      (encode_chunk U).2.2.2 ∈ U.timestamps ∧
      (∀ t ∈ U.timestamps, t ≤ (encode_chunk U).2.2.2) := by
  have htsne : U.timestamps ≠ [] := by
    intro hc
    apply hne
    have := hlen2
    rw [hc] at this
    simpa using (List.length_eq_zero.mp this.symm)
  have hU0 : (0 : Nat) < U64 := U64_pos
  -- the emitted byte stream, laid out as nested appends
  have hdec : decode_chunk (encode_chunk U).1 U.paramids.length = some U := by
    have hplen : U.paramids.length < U64 := by
      have hU : (2 : Nat) ^ 32 < U64 := by norm_num [U64]
      omega
    have htlen : U.timestamps.length < U64 := by rw [hlen2]; exact hplen
    have hrt1 := deltaRLE_roundtrip U.paramids hU0 hpid hplen 0
      (leBytes 4 (4 + (deltaRLE_encode 0 U.paramids).1.length + 4 +
          (deltaRLE_encode 0 U.timestamps).1.length) ++
        ((deltaRLE_encode 0 U.timestamps).1 ++
          (leBytes 4 1 ++ (leBytes 4 U.values.length ++ compress_doubles U.values))))
    have hrt2 := deltaRLE_roundtrip U.timestamps hU0 hts htlen 0
      (leBytes 4 1 ++ (leBytes 4 U.values.length ++ compress_doubles U.values))
    rw [hlen2] at hrt2
    have hnb : U.values.length % 2 ^ (8 * 4) = U.values.length := by
      apply Nat.mod_eq_of_lt
      have h84 : (8 : Nat) * 4 = 32 := by norm_num
      rw [h84]
      omega
    have hnlt : ¬ U.paramids.length < U.values.length := by omega
    have hvrt := decompressPairs_compressPairs U.values .init wf_init hval []
    rw [List.append_nil] at hvrt
    have hrep : U.paramids.length - U.values.length = 0 := by omega
    simp only [compress_doubles] at hrt1 hrt2
    simp only [encode_chunk, decode_chunk, le32, List.append_assoc,
      readBytesLE_leBytes, hrt1, hrt2, hnb, hnlt, if_false, compress_doubles,
      hvrt, hrep, List.replicate_zero, List.append_nil]
  refine ⟨hdec, ?_, ?_, ?_, ?_⟩
  · -- ts_begin is a member
    obtain ⟨hmem, hle, hall⟩ := foldl_min_spec U.timestamps AKU_MAX_TIMESTAMP
    have hbegin : (encode_chunk U).2.2.1 = U.timestamps.foldl min AKU_MAX_TIMESTAMP := rfl
    rw [hbegin]
    rcases hmem with hmem | hmem
    · -- the fold never dropped below the sentinel: all members equal it
      obtain ⟨t0, hts0⟩ := List.exists_mem_of_ne_nil U.timestamps htsne
      have h1 := hall t0 hts0
      have h2 : t0 < U64 := hts t0 hts0
      have h3 : t0 = U.timestamps.foldl min AKU_MAX_TIMESTAMP := by
        rw [hmem] at h1 ⊢
        simp only [AKU_MAX_TIMESTAMP] at *
        omega
      rw [← h3]
      exact hts0
    · exact hmem
  · exact (foldl_min_spec U.timestamps AKU_MAX_TIMESTAMP).2.2
  · obtain ⟨hmem, hle, hall⟩ := foldl_max_spec U.timestamps AKU_MIN_TIMESTAMP
    have hend : (encode_chunk U).2.2.2 = U.timestamps.foldl max AKU_MIN_TIMESTAMP := rfl
    rw [hend]
    rcases hmem with hmem | hmem
    · obtain ⟨t0, hts0⟩ := List.exists_mem_of_ne_nil U.timestamps htsne
      have h1 := hall t0 hts0
      have h3 : t0 = U.timestamps.foldl max AKU_MIN_TIMESTAMP := by
        rw [hmem] at h1 ⊢
        simp only [AKU_MIN_TIMESTAMP] at *
        omega
      rw [← h3]
      exact hts0
    · exact hmem
  · exact (foldl_max_spec U.timestamps AKU_MIN_TIMESTAMP).2.2

theorem C2_chunk_roundtrip_witness :
    decode_chunk (encode_chunk ⟨[7, 7, 9], [100, 50, 200], [1, 2, 3]⟩).1 3 =
        some ⟨[7, 7, 9], [100, 50, 200], [1, 2, 3]⟩ ∧
      (encode_chunk ⟨[7, 7, 9], [100, 50, 200], [1, 2, 3]⟩).2.2.1 ∈
        ([100, 50, 200] : List Nat) ∧
      (∀ t ∈ ([100, 50, 200] : List Nat),
        (encode_chunk ⟨[7, 7, 9], [100, 50, 200], [1, 2, 3]⟩).2.2.1 ≤ t) ∧
      (encode_chunk ⟨[7, 7, 9], [100, 50, 200], [1, 2, 3]⟩).2.2.2 ∈
        ([100, 50, 200] : List Nat) ∧
      (∀ t ∈ ([100, 50, 200] : List Nat),
        t ≤ (encode_chunk ⟨[7, 7, 9], [100, 50, 200], [1, 2, 3]⟩).2.2.2) :=
  C2_chunk_roundtrip ⟨[7, 7, 9], [100, 50, 200], [1, 2, 3]⟩
    (by decide) (by decide) (by decide) rfl rfl (by decide) (by decide)

/-- C6: the u32 field written directly before the value stream is the
element count returned by `compress_doubles` (not a byte size), and it is
exactly the count `decode_chunk` reads back as `nblocks` before
predictive-decoding that many doubles. -/
theorem C6_value_stream_count (U : UncompressedChunk)
    (hpid : ∀ x ∈ U.paramids, x < U64) (hts : ∀ x ∈ U.timestamps, x < U64)
    (hlen2 : U.timestamps.length = U.paramids.length)
    (hsmall : U.paramids.length < 2 ^ 32)
    (hvsmall : U.values.length < 2 ^ 32) :
    (encode_chunk U).1 =
        (le32 (4 + (deltaRLE_encode 0 U.paramids).1.length) ++
            (deltaRLE_encode 0 U.paramids).1 ++
            le32 (4 + (deltaRLE_encode 0 U.paramids).1.length + 4 +
              (deltaRLE_encode 0 U.timestamps).1.length) ++
            (deltaRLE_encode 0 U.timestamps).1 ++ le32 1) ++
          le32 U.values.length ++ compress_doubles U.values ∧
      decode_chunk_nblocks (encode_chunk U).1 U.paramids.length =
        some U.values.length := by
  constructor
  · simp [encode_chunk]
  · have hU0 : (0 : Nat) < U64 := U64_pos
    have hplen : U.paramids.length < U64 := by
      have hU : (2 : Nat) ^ 32 < U64 := by norm_num [U64]
      omega
    have htlen : U.timestamps.length < U64 := by rw [hlen2]; exact hplen
    have hrt1 := deltaRLE_roundtrip U.paramids hU0 hpid hplen 0
      (leBytes 4 (4 + (deltaRLE_encode 0 U.paramids).1.length + 4 +
          (deltaRLE_encode 0 U.timestamps).1.length) ++
        ((deltaRLE_encode 0 U.timestamps).1 ++
          (leBytes 4 1 ++ (leBytes 4 U.values.length ++ compress_doubles U.values))))
    have hrt2 := deltaRLE_roundtrip U.timestamps hU0 hts htlen 0
      (leBytes 4 1 ++ (leBytes 4 U.values.length ++ compress_doubles U.values))
    rw [hlen2] at hrt2
    have hnb : U.values.length % 2 ^ (8 * 4) = U.values.length := by
      apply Nat.mod_eq_of_lt
      have h84 : (8 : Nat) * 4 = 32 := by norm_num
      rw [h84]
      omega
    simp only [compress_doubles] at hrt1 hrt2
    simp only [encode_chunk, decode_chunk_nblocks, le32, List.append_assoc,
      readBytesLE_leBytes, hrt1, hrt2, hnb, compress_doubles]

theorem C6_value_stream_count_witness :
    (∀ x ∈ ([3, 4] : List Nat), x < U64) ∧ (∀ x ∈ ([10, 11] : List Nat), x < U64) ∧
      ([10, 11] : List Nat).length = ([3, 4] : List Nat).length ∧
      ([3, 4] : List Nat).length < 2 ^ 32 ∧
      ([5, 6] : List Nat).length < 2 ^ 32 ∧
      ((encode_chunk ⟨[3, 4], [10, 11], [5, 6]⟩).1 =
          (le32 (4 + (deltaRLE_encode 0 ([3, 4] : List Nat)).1.length) ++
              (deltaRLE_encode 0 ([3, 4] : List Nat)).1 ++
              le32 (4 + (deltaRLE_encode 0 ([3, 4] : List Nat)).1.length + 4 +
                (deltaRLE_encode 0 ([10, 11] : List Nat)).1.length) ++
              (deltaRLE_encode 0 ([10, 11] : List Nat)).1 ++ le32 1) ++
            le32 ([5, 6] : List Nat).length ++ compress_doubles [5, 6] ∧
        decode_chunk_nblocks (encode_chunk ⟨[3, 4], [10, 11], [5, 6]⟩).1
            ([3, 4] : List Nat).length =
          some ([5, 6] : List Nat).length) :=
  ⟨by decide, by decide, rfl, by decide, by decide,
    C6_value_stream_count ⟨[3, 4], [10, 11], [5, 6]⟩ (by decide) (by decide) rfl (by decide)
      (by decide)⟩

/-- C7 fails on the code: `*length_prefix = wstream.size()` patches the
paramid prefix with the shared stream's cumulative byte count (prefix
included), not the delta-RLE body size.  For the one-element chunk
`([0], [0], [0])` the paramid body is 2 bytes but the prefix reads back 6. -/
theorem C7_counterexample :
    (readBytesLE 4 (encode_chunk ⟨[0], [0], [0]⟩).1).map Prod.fst = some 6 ∧
      (deltaRLE_encode 0 ([0] : List Nat)).1.length = 2 ∧ (6 : Nat) ≠ 2 := by
  refine ⟨by decide, rfl, by decide⟩

/-- C7 amended: the paramid-stream u32 field is patched with the shared
stream's cumulative size at commit time, `4 + |paramid body|` (its own
prefix included), and the timestamp-stream u32 field with
`4 + |paramid body| + 4 + |timestamp body|`. -/
theorem C7_cumulative_size_fields (U : UncompressedChunk)
    (hsz : 4 + (deltaRLE_encode 0 U.paramids).1.length + 4 +
        (deltaRLE_encode 0 U.timestamps).1.length < 2 ^ 32) :
    (readBytesLE 4 (encode_chunk U).1).map Prod.fst =
        some (4 + (deltaRLE_encode 0 U.paramids).1.length) ∧
      (readBytesLE 4
          ((encode_chunk U).1.drop (4 + (deltaRLE_encode 0 U.paramids).1.length))).map
          Prod.fst =
        some (4 + (deltaRLE_encode 0 U.paramids).1.length + 4 +
          (deltaRLE_encode 0 U.timestamps).1.length) := by
  have h84 : (2 : Nat) ^ (8 * 4) = 2 ^ 32 := by norm_num
  constructor
  · have hfit : 4 + (deltaRLE_encode 0 U.paramids).1.length < 2 ^ (8 * 4) := by
      rw [h84]; omega
    simp only [encode_chunk, le32, List.append_assoc,
      readBytesLE_leBytes_of_lt hfit]
    rfl
  · have hgroup : (encode_chunk U).1 =
        (leBytes 4 (4 + (deltaRLE_encode 0 U.paramids).1.length) ++
            (deltaRLE_encode 0 U.paramids).1) ++
          (leBytes 4 (4 + (deltaRLE_encode 0 U.paramids).1.length + 4 +
              (deltaRLE_encode 0 U.timestamps).1.length) ++
            ((deltaRLE_encode 0 U.timestamps).1 ++
              (leBytes 4 1 ++ (leBytes 4 U.values.length ++ compress_doubles U.values)))) := by
      simp [encode_chunk, le32]
    have hlen : (leBytes 4 (4 + (deltaRLE_encode 0 U.paramids).1.length) ++
        (deltaRLE_encode 0 U.paramids).1).length =
          4 + (deltaRLE_encode 0 U.paramids).1.length := by
      simp [length_leBytes]
    have hfit : 4 + (deltaRLE_encode 0 U.paramids).1.length + 4 +
        (deltaRLE_encode 0 U.timestamps).1.length < 2 ^ (8 * 4) := by
      rw [h84]; omega
    rw [hgroup, List.drop_left' hlen, readBytesLE_leBytes_of_lt hfit]
    rfl

theorem C7_cumulative_size_fields_witness :
    4 + (deltaRLE_encode 0 ([0] : List Nat)).1.length + 4 +
        (deltaRLE_encode 0 ([0] : List Nat)).1.length < 2 ^ 32 ∧
      ((readBytesLE 4 (encode_chunk ⟨[0], [0], [0]⟩).1).map Prod.fst =
          some (4 + (deltaRLE_encode 0 ([0] : List Nat)).1.length) ∧
        (readBytesLE 4
            ((encode_chunk ⟨[0], [0], [0]⟩).1.drop
              (4 + (deltaRLE_encode 0 ([0] : List Nat)).1.length))).map Prod.fst =
          some (4 + (deltaRLE_encode 0 ([0] : List Nat)).1.length + 4 +
            (deltaRLE_encode 0 ([0] : List Nat)).1.length)) :=
  ⟨by decide, C7_cumulative_size_fields ⟨[0], [0], [0]⟩ (by decide)⟩

/-! ## Reorder helpers: stable sort of the index permutation -/

theorem sublist_pair_range {i j n : Nat} (hij : i < j) (hjn : j < n) :
    List.Sublist [i, j] (List.range n) := by
  have hsplit : List.range n = List.range j ++ (List.range (n - j)).map (j + ·) := by
    rw [← List.range_add]
    congr 1
    omega
  rw [hsplit]
  have h1 : List.Sublist [i] (List.range j) := List.singleton_sublist.mpr (List.mem_range.mpr hij)
  have h2 : List.Sublist [j] ((List.range (n - j)).map (j + ·)) := by
    apply List.singleton_sublist.mpr
    apply List.mem_map.mpr
    exact ⟨0, List.mem_range.mpr (by omega), by omega⟩
  exact List.Sublist.append h1 h2

/-- The stable sort of an index range by a key: it is a permutation, it is
sorted by the key, and ties keep their original (index) order. -/
theorem stableSort_range_spec (key : Nat → Nat) (n : Nat) :
    (stableSort (fun a b => decide (key a < key b)) (List.range n)).Perm (List.range n) ∧
      List.Pairwise (fun i j => key i ≤ key j)
        (stableSort (fun a b => decide (key a < key b)) (List.range n)) ∧
      ∀ i j, i < j → j < n → key i = key j →
        List.Sublist [i, j] (stableSort (fun a b => decide (key a < key b)) (List.range n)) := by
  have htrans : ∀ a b c : Nat,
      (! decide (key b < key a)) → (! decide (key c < key b)) → (! decide (key c < key a)) := by
    intro a b c hab hbc
    simp only [Bool.not_eq_true', decide_eq_false_iff_not, not_lt] at *
    omega
  have htotal : ∀ a b : Nat,
      ((! decide (key b < key a)) || (! decide (key a < key b))) = true := by
    intro a b
    simp only [Bool.or_eq_true, Bool.not_eq_true', decide_eq_false_iff_not, not_lt]
    omega
  refine ⟨List.mergeSort_perm _ _, ?_, ?_⟩
  · have hs := List.sorted_mergeSort htrans htotal (List.range n)
    exact hs.imp (by
      intro a b hab
      simp only [Bool.not_eq_true', decide_eq_false_iff_not, not_lt] at hab
      omega)
  · intro i j hij hjn hkey
    apply List.pair_sublist_mergeSort htrans htotal
    · simp only [Bool.not_eq_true', decide_eq_false_iff_not, not_lt]
      omega
    · exact sublist_pair_range hij hjn

/-- C9: `convert_from_chunk_order` / `convert_from_time_order` return
`none` exactly on a length mismatch; on equal lengths they emit the three
arrays permuted by one index list that is sorted by the selected key
(timestamp resp. paramid) and preserves input order on equal keys. -/
theorem C9_reorder_stable (header : UncompressedChunk) :
    ((convert_from_chunk_order header = none ↔
        (header.timestamps.length ≠ header.values.length ∨
          header.timestamps.length ≠ header.paramids.length)) ∧
      (convert_from_time_order header = none ↔
        (header.timestamps.length ≠ header.values.length ∨
          header.timestamps.length ≠ header.paramids.length))) ∧
      (header.timestamps.length = header.values.length →
        header.timestamps.length = header.paramids.length →
        (∃ index : List Nat,
          index.Perm (List.range header.timestamps.length) ∧
          List.Pairwise
            (fun i j => header.timestamps.getD i 0 ≤ header.timestamps.getD j 0) index ∧
          (∀ i j, i < j → j < header.timestamps.length →
            header.timestamps.getD i 0 = header.timestamps.getD j 0 → List.Sublist [i, j] index) ∧
          convert_from_chunk_order header =
            some ⟨index.map fun ix => header.paramids.getD ix 0,
                  index.map fun ix => header.timestamps.getD ix 0,
                  index.map fun ix => header.values.getD ix 0⟩) ∧
        (∃ index : List Nat,
          index.Perm (List.range header.timestamps.length) ∧
          List.Pairwise
            (fun i j => header.paramids.getD i 0 ≤ header.paramids.getD j 0) index ∧
          (∀ i j, i < j → j < header.timestamps.length →
            header.paramids.getD i 0 = header.paramids.getD j 0 → List.Sublist [i, j] index) ∧
          convert_from_time_order header =
            some ⟨index.map fun ix => header.paramids.getD ix 0,
                  index.map fun ix => header.timestamps.getD ix 0,
                  index.map fun ix => header.values.getD ix 0⟩)) := by
  constructor
  · constructor
    · simp only [convert_from_chunk_order, reorder_chunk_header]
      split
      · simp_all
      · simp_all
        omega
    · simp only [convert_from_time_order, reorder_chunk_header]
      split
      · simp_all
      · simp_all
        omega
  · intro h1 h2
    have hcond : ¬(header.timestamps.length ≠ header.values.length ∨
        header.timestamps.length ≠ header.paramids.length) := by
      push_neg
      exact ⟨h1, h2⟩
    constructor
    · obtain ⟨hperm, hsort, hstable⟩ :=
        stableSort_range_spec (fun ix => header.timestamps.getD ix 0)
          header.timestamps.length
      refine ⟨stableSort
          (fun lhs rhs =>
            decide (header.timestamps.getD lhs 0 < header.timestamps.getD rhs 0))
          (List.range header.timestamps.length), hperm, hsort, hstable, ?_⟩
      simp only [convert_from_chunk_order, reorder_chunk_header, if_neg hcond]
    · obtain ⟨hperm, hsort, hstable⟩ :=
        stableSort_range_spec (fun ix => header.paramids.getD ix 0)
          header.timestamps.length
      refine ⟨stableSort
          (fun lhs rhs =>
            decide (header.paramids.getD lhs 0 < header.paramids.getD rhs 0))
          (List.range header.timestamps.length), hperm, hsort, hstable, ?_⟩
      simp only [convert_from_time_order, reorder_chunk_header, if_neg hcond]

theorem C9_reorder_stable_witness :
    ([30, 10] : List Nat).length = ([100, 200] : List Nat).length ∧
      ([30, 10] : List Nat).length = ([1, 2] : List Nat).length ∧
      ((∃ index : List Nat,
          index.Perm (List.range 2) ∧
          List.Pairwise
            (fun i j => ([30, 10] : List Nat).getD i 0 ≤ ([30, 10] : List Nat).getD j 0) index ∧
          (∀ i j, i < j → j < 2 →
            ([30, 10] : List Nat).getD i 0 = ([30, 10] : List Nat).getD j 0 → List.Sublist [i, j] index) ∧
          convert_from_chunk_order ⟨[1, 2], [30, 10], [100, 200]⟩ =
            some ⟨index.map fun ix => ([1, 2] : List Nat).getD ix 0,
                  index.map fun ix => ([30, 10] : List Nat).getD ix 0,
                  index.map fun ix => ([100, 200] : List Nat).getD ix 0⟩) ∧
        (∃ index : List Nat,
          index.Perm (List.range 2) ∧
          List.Pairwise
            (fun i j => ([1, 2] : List Nat).getD i 0 ≤ ([1, 2] : List Nat).getD j 0) index ∧
          (∀ i j, i < j → j < 2 →
            ([1, 2] : List Nat).getD i 0 = ([1, 2] : List Nat).getD j 0 → List.Sublist [i, j] index) ∧
          convert_from_time_order ⟨[1, 2], [30, 10], [100, 200]⟩ =
            some ⟨index.map fun ix => ([1, 2] : List Nat).getD ix 0,
                  index.map fun ix => ([30, 10] : List Nat).getD ix 0,
                  index.map fun ix => ([100, 200] : List Nat).getD ix 0⟩)) :=
  ⟨by decide, by decide,
    (C9_reorder_stable ⟨[1, 2], [30, 10], [100, 200]⟩).2 (by decide) (by decide)⟩

/-! ## Claim theorems: data-block capacity oracle and header accounting

The counterexample block: buffer of 318 bytes, so that after the 14-byte
header `space_left = 304 = MARGIN` and `room_for_chunk()` holds throughout
the first chunk.  The 16 timestamps have pairwise distinct deltas, each at
least `2^63` (ten-byte varints), so the spec-modelled delta-RLE batch takes
16 runs x (1 + 10) = 176 bytes; the 16 values alternate so that every XOR
diff has bit 63 and bit 0 set (eight stored bytes each), so the value batch
takes 8 + 128 = 136 bytes.  The flush needs 312 bytes but only 304 are
free: the timestamp `tput` succeeds and the value `tput` fails, reaching
the `assert(false)` / `AKU_EOVERFLOW` branch of `DataBlockWriter::put`. -/

set_option maxRecDepth 8192
set_option maxHeartbeats 4000000

/-- C4 fails on the code: at the chunk-completing 16th `put` the capacity
oracle `room_for_chunk()` still answers true (`space_left = MARGIN = 304`)
yet the flush fails and `put` returns `AKU_EOVERFLOW` — the branch the
implementation asserts unreachable. -/
theorem C4_margin_counterexample :
    (runPuts (DataBlockWriter.mk0 318)
        [(9223372036854775808, 9223372036854775809), (1, 2),
         (9223372036854775811, 9223372036854775809), (6, 2),
         (9223372036854775818, 9223372036854775809), (15, 2),
         (9223372036854775829, 9223372036854775809), (28, 2),
         (9223372036854775844, 9223372036854775809), (45, 2),
         (9223372036854775863, 9223372036854775809), (66, 2),
         (9223372036854775886, 9223372036854775809), (91, 2),
         (9223372036854775913, 9223372036854775809)]).2 =
        List.replicate 15 AkuStatus.success ∧
      (runPuts (DataBlockWriter.mk0 318)
        [(9223372036854775808, 9223372036854775809), (1, 2),
         (9223372036854775811, 9223372036854775809), (6, 2),
         (9223372036854775818, 9223372036854775809), (15, 2),
         (9223372036854775829, 9223372036854775809), (28, 2),
         (9223372036854775844, 9223372036854775809), (45, 2),
         (9223372036854775863, 9223372036854775809), (66, 2),
         (9223372036854775886, 9223372036854775809), (91, 2),
         (9223372036854775913, 9223372036854775809)]).1.room_for_chunk = true ∧
      (runPuts (DataBlockWriter.mk0 318)
        [(9223372036854775808, 9223372036854775809), (1, 2),
         (9223372036854775811, 9223372036854775809), (6, 2),
         (9223372036854775818, 9223372036854775809), (15, 2),
         (9223372036854775829, 9223372036854775809), (28, 2),
         (9223372036854775844, 9223372036854775809), (45, 2),
         (9223372036854775863, 9223372036854775809), (66, 2),
         (9223372036854775886, 9223372036854775809), (91, 2),
         (9223372036854775913, 9223372036854775809)]).1.space_left = MARGIN ∧
      ((runPuts (DataBlockWriter.mk0 318)
        [(9223372036854775808, 9223372036854775809), (1, 2),
         (9223372036854775811, 9223372036854775809), (6, 2),
         (9223372036854775818, 9223372036854775809), (15, 2),
         (9223372036854775829, 9223372036854775809), (28, 2),
         (9223372036854775844, 9223372036854775809), (45, 2),
         (9223372036854775863, 9223372036854775809), (66, 2),
         (9223372036854775886, 9223372036854775809), (91, 2),
         (9223372036854775913, 9223372036854775809)]).1.put 120 2).1 =
        AkuStatus.eoverflow := by
  decide

/-- C5 fails on the code through the same defect: when the 16th `put`
fails its flush, `write_index` was already incremented, so after `commit`
the header counts 16 samples while only 15 puts returned `AKU_SUCCESS`. -/
theorem C5_counterexample :
    (runPuts (DataBlockWriter.mk0 318)
        [(9223372036854775808, 9223372036854775809), (1, 2),
         (9223372036854775811, 9223372036854775809), (6, 2),
         (9223372036854775818, 9223372036854775809), (15, 2),
         (9223372036854775829, 9223372036854775809), (28, 2),
         (9223372036854775844, 9223372036854775809), (45, 2),
         (9223372036854775863, 9223372036854775809), (66, 2),
         (9223372036854775886, 9223372036854775809), (91, 2),
         (9223372036854775913, 9223372036854775809), (120, 2)]).2 =
        List.replicate 15 AkuStatus.success ++ [AkuStatus.eoverflow] ∧
      countSuccess (runPuts (DataBlockWriter.mk0 318)
        [(9223372036854775808, 9223372036854775809), (1, 2),
         (9223372036854775811, 9223372036854775809), (6, 2),
         (9223372036854775818, 9223372036854775809), (15, 2),
         (9223372036854775829, 9223372036854775809), (28, 2),
         (9223372036854775844, 9223372036854775809), (45, 2),
         (9223372036854775863, 9223372036854775809), (66, 2),
         (9223372036854775886, 9223372036854775809), (91, 2),
         (9223372036854775913, 9223372036854775809), (120, 2)]).2 = 15 ∧
      ((runPuts (DataBlockWriter.mk0 318)
        [(9223372036854775808, 9223372036854775809), (1, 2),
         (9223372036854775811, 9223372036854775809), (6, 2),
         (9223372036854775818, 9223372036854775809), (15, 2),
         (9223372036854775829, 9223372036854775809), (28, 2),
         (9223372036854775844, 9223372036854775809), (45, 2),
         (9223372036854775863, 9223372036854775809), (66, 2),
         (9223372036854775886, 9223372036854775809), (91, 2),
         (9223372036854775913, 9223372036854775809), (120, 2)]).1.commit).map
          (fun r => r.2 * 16 + r.1.ntail) = some 16 ∧
      (15 : Nat) ≠ 16 := by
  decide

/-! ## Writer-state helper lemmas -/

theorem tryAppend_fields (w : DataBlockWriter) (bs : List Nat) :
    (w.tryAppend bs).2.cap = w.cap ∧
      (w.tryAppend bs).2.ntail = w.ntail ∧
      (w.tryAppend bs).2.write_index = w.write_index ∧
      (w.tryAppend bs).2.ts_writebuf = w.ts_writebuf ∧
      (w.tryAppend bs).2.val_writebuf = w.val_writebuf ∧
      (w.tryAppend bs).2.ts_prev = w.ts_prev ∧
      (w.tryAppend bs).2.fcm = w.fcm ∧
      w.body.length ≤ (w.tryAppend bs).2.body.length := by
  simp only [DataBlockWriter.tryAppend]
  split <;> simp

theorem tryAppend_true {w : DataBlockWriter} {bs : List Nat}
    (h : (w.tryAppend bs).1 = true) :
    (w.tryAppend bs).2.body = w.body ++ bs ∧
      14 + w.body.length + bs.length ≤ w.cap := by
  simp only [DataBlockWriter.tryAppend] at *
  split at h <;> simp_all

theorem putRaw64_fields (w : DataBlockWriter) (x : Nat) :
    (w.putRaw64 x).2.cap = w.cap ∧
      (w.putRaw64 x).2.ntail = w.ntail ∧
      (w.putRaw64 x).2.write_index = w.write_index ∧
      (w.putRaw64 x).2.ts_writebuf = w.ts_writebuf ∧
      (w.putRaw64 x).2.val_writebuf = w.val_writebuf ∧
      (w.putRaw64 x).2.ts_prev = w.ts_prev ∧
      (w.putRaw64 x).2.fcm = w.fcm ∧
      w.body.length ≤ (w.putRaw64 x).2.body.length := by
  simp only [DataBlockWriter.putRaw64]
  split <;> simp

theorem putRaw64_true {w : DataBlockWriter} {x : Nat}
    (h : (w.putRaw64 x).1 = true) :
    (w.putRaw64 x).2.body = w.body ++ le64 x ∧
      14 + w.body.length + 8 ≤ w.cap := by
  simp only [DataBlockWriter.putRaw64] at *
  split at h <;> simp_all

theorem space_left_le_of_le {w w' : DataBlockWriter}
    (hcap : w'.cap = w.cap) (hlen : w.body.length ≤ w'.body.length) :
    w'.space_left ≤ w.space_left := by
  simp only [DataBlockWriter.space_left, hcap]
  omega

theorem room_iff {w : DataBlockWriter} :
    w.room_for_chunk = true ↔ ¬ w.space_left < MARGIN := by
  simp [DataBlockWriter.room_for_chunk]

theorem flushChunk_fields (w1 : DataBlockWriter) :
    w1.flushChunk.2.cap = w1.cap ∧
      w1.flushChunk.2.ntail = w1.ntail ∧
      w1.flushChunk.2.write_index = w1.write_index ∧
      w1.flushChunk.2.ts_writebuf = [] ∧
      w1.flushChunk.2.val_writebuf = [] ∧
      w1.body.length ≤ w1.flushChunk.2.body.length := by
  obtain ⟨hc2, hn2, hwi2, _, _, _, _, hb2⟩ :=
    tryAppend_fields w1 (deltaRLE_encode w1.ts_prev w1.ts_writebuf).1
  obtain ⟨hc3, hn3, hwi3, _, _, _, _, hb3⟩ :=
    tryAppend_fields (w1.tryAppend (deltaRLE_encode w1.ts_prev w1.ts_writebuf).1).2
      (compressPairs w1.fcm w1.val_writebuf).1
  simp only [DataBlockWriter.flushChunk]
  split
  · split
    · exact ⟨by simp [hc3, hc2], by simp [hn3, hn2], by simp [hwi3, hwi2],
        rfl, rfl, le_trans hb2 hb3⟩
    · exact ⟨by simp [hc3, hc2], by simp [hn3, hn2], by simp [hwi3, hwi2],
        rfl, rfl, le_trans hb2 hb3⟩
  · exact ⟨by simp [hc2], by simp [hn2], by simp [hwi2], rfl, rfl, hb2⟩

theorem flushChunk_status (w1 : DataBlockWriter) :
    w1.flushChunk.1 = AkuStatus.success ∨ w1.flushChunk.1 = AkuStatus.eoverflow := by
  simp only [DataBlockWriter.flushChunk]
  split
  · split
    · exact Or.inl rfl
    · exact Or.inr rfl
  · exact Or.inr rfl

/-- One `put` preserves the light invariant and advances
`write_index + ntail` exactly on `AKU_SUCCESS`, provided it is not a
failing chunk flush. -/
theorem put_step_inv (w : DataBlockWriter) (ts v : Nat) (hw : CInv w)
    (hok : ¬(w.room_for_chunk = true ∧ (w.put ts v).1 = AkuStatus.eoverflow)) :
    CInv (w.put ts v).2 ∧
      (w.put ts v).2.write_index + (w.put ts v).2.ntail =
        w.write_index + w.ntail +
          (if (w.put ts v).1 = AkuStatus.success then 1 else 0) := by
  obtain ⟨h1, h2, h3, h4⟩ := hw
  by_cases hroom : w.room_for_chunk = true
  · have hsp : ¬ w.space_left < MARGIN := room_iff.mp hroom
    have hnt0 : w.ntail = 0 := by
      by_cases hnt : w.ntail = 0
      · exact hnt
      · exact absurd (h3 hnt) hsp
    by_cases hfull : (w.write_index + 1) % 16 = 0
    · have hfields := flushChunk_fields
        { w with ts_writebuf := w.ts_writebuf ++ [ts],
                 val_writebuf := w.val_writebuf ++ [v],
                 write_index := w.write_index + 1 }
      have hstat := flushChunk_status
        { w with ts_writebuf := w.ts_writebuf ++ [ts],
                 val_writebuf := w.val_writebuf ++ [v],
                 write_index := w.write_index + 1 }
      simp only [DataBlockWriter.put, hroom, if_true, hfull] at hok ⊢
      obtain ⟨hc, hn, hwi, hts, hvl, _⟩ := hfields
      have hsucc :
          ({ w with ts_writebuf := w.ts_writebuf ++ [ts],
                    val_writebuf := w.val_writebuf ++ [v],
                    write_index := w.write_index + 1 } :
            DataBlockWriter).flushChunk.1 = AkuStatus.success := by
        rcases hstat with hs | hs
        · exact hs
        · exact absurd hs (by simpa using hok)
      refine ⟨⟨?_, ?_, ?_, ?_⟩, ?_⟩
      · rw [hts, hwi]
        simp [hfull]
      · rw [hvl, hwi]
        simp [hfull]
      · intro hnt
        rw [hn] at hnt
        simp [hnt0] at hnt
      · intro hwi16
        rw [hwi] at hwi16
        simp [hfull] at hwi16
      · rw [hwi, hn, hsucc]
        simp [hnt0]
    · simp only [DataBlockWriter.put, hroom, if_true, hfull, if_false] at hok ⊢
      refine ⟨⟨?_, ?_, ?_, ?_⟩, ?_⟩
      · simp only [List.length_append, List.length_singleton, h1]
        omega
      · simp only [List.length_append, List.length_singleton, h2]
        omega
      · intro hnt
        simp only at hnt
        omega
      · intro _
        simpa using hsp
      · simp [hnt0]
  · have hsp : w.space_left < MARGIN := by
      by_contra hc
      exact hroom (room_iff.mpr hc)
    have hst0 : w.write_index % 16 = 0 := by
      by_cases hwi : w.write_index % 16 = 0
      · exact hwi
      · exact absurd hsp (h4 hwi)
    simp only [DataBlockWriter.put, hroom, if_false, Bool.false_eq_true] at hok ⊢
    obtain ⟨hc1, hn1, hwi1, hts1, hvl1, _, _, hb1⟩ := putRaw64_fields w ts
    obtain ⟨hc2, hn2, hwi2, hts2, hvl2, _, _, hb2⟩ :=
      putRaw64_fields (w.putRaw64 ts).2 v
    have hsp2 : ((w.putRaw64 ts).2.putRaw64 v).2.space_left ≤ w.space_left := by
      calc ((w.putRaw64 ts).2.putRaw64 v).2.space_left
          ≤ (w.putRaw64 ts).2.space_left := space_left_le_of_le hc2 hb2
      _ ≤ w.space_left := space_left_le_of_le hc1 hb1
    split
    next hok12 =>
      refine ⟨⟨?_, ?_, ?_, ?_⟩, ?_⟩
      · simp only [hts2, hts1, hwi2, hwi1, h1]
      · simp only [hvl2, hvl1, hwi2, hwi1, h2]
      · intro _
        simp only [DataBlockWriter.space_left] at *
        omega
      · intro hwi
        simp only [hwi2, hwi1] at hwi
        exact absurd hsp (h4 hwi)
      · simp only [hwi2, hwi1, hn2, hn1]
        simp
        omega
    next hok12 =>
      refine ⟨⟨?_, ?_, ?_, ?_⟩, ?_⟩
      · simp only [hts2, hts1, hwi2, hwi1, h1]
      · simp only [hvl2, hvl1, hwi2, hwi1, h2]
      · intro _
        simp only [DataBlockWriter.space_left] at *
        omega
      · intro hwi
        simp only [hwi2, hwi1] at hwi
        exact absurd hsp (h4 hwi)
      · simp only [hwi2, hwi1, hn2, hn1]
        simp

theorem runPuts_cons (w : DataBlockWriter) (ts v : Nat) (rest : List (Nat × Nat)) :
    runPuts w ((ts, v) :: rest) =
      ((runPuts (w.put ts v).2 rest).1,
        (w.put ts v).1 :: (runPuts (w.put ts v).2 rest).2) := rfl

theorem countSuccess_cons (st : AkuStatus) (sts : List AkuStatus) :
    countSuccess (st :: sts) =
      (if st = AkuStatus.success then 1 else 0) + countSuccess sts := by
  simp only [countSuccess, List.countP_cons, decide_eq_true_eq]
  omega

/-- Under `runPutsOk`, the light invariant persists through a run and
`write_index + ntail` counts exactly the successful puts. -/
theorem runPuts_ok_inv : ∀ (S : List (Nat × Nat)) (w : DataBlockWriter),
    CInv w → runPutsOk w S = true →
    CInv (runPuts w S).1 ∧
      (runPuts w S).1.write_index + (runPuts w S).1.ntail =
        w.write_index + w.ntail + countSuccess (runPuts w S).2
  | [], w, hw, _ => by
    simp only [runPuts, countSuccess, List.countP_nil]
    exact ⟨hw, rfl⟩
  | (ts, v) :: rest, w, hw, hok => by
    simp only [runPutsOk] at hok
    rw [Bool.and_eq_true] at hok
    obtain ⟨hok1, hok2⟩ := hok
    have hok1' : ¬(w.room_for_chunk = true ∧ (w.put ts v).1 = AkuStatus.eoverflow) := by
      rintro ⟨ha, hb⟩
      rw [ha, hb] at hok1
      simp at hok1
    obtain ⟨hinv1, hacc1⟩ := put_step_inv w ts v hw hok1'
    obtain ⟨hinv2, hacc2⟩ := runPuts_ok_inv rest (w.put ts v).2 hinv1 hok2
    rw [runPuts_cons]
    refine ⟨hinv2, ?_⟩
    simp only [countSuccess_cons]
    rw [hacc2, hacc1]
    omega

theorem putRaw64_of_fit (w : DataBlockWriter) (x : Nat)
    (h : 14 + w.body.length + 8 ≤ w.cap) :
    w.putRaw64 x = (true, { w with body := w.body ++ le64 x }) := by
  simp [DataBlockWriter.putRaw64, h]

/-- The tail-flush loop of `commit` appends every staged sample when the
16-bytes-per-sample estimate fits, bumping `ntail` once per sample. -/
theorem commitTail_spec : ∀ (ps : List (Nat × Nat)) (w : DataBlockWriter),
    14 + w.body.length + 16 * ps.length ≤ w.cap →
    (commitTail w ps).ntail = w.ntail + ps.length ∧
      (commitTail w ps).write_index = w.write_index ∧
      (commitTail w ps).cap = w.cap
  | [], w, _ => by simp [commitTail]
  | (ts, v) :: rest, w, h => by
    simp only [List.length_cons] at h
    have hfit1 : 14 + w.body.length + 8 ≤ w.cap := by omega
    have hfit2 : 14 + ({ w with body := w.body ++ le64 ts } :
        DataBlockWriter).body.length + 8 ≤
        ({ w with body := w.body ++ le64 ts } : DataBlockWriter).cap := by
      simp only [List.length_append, le64, length_leBytes]
      omega
    simp only [commitTail, putRaw64_of_fit w ts hfit1,
      putRaw64_of_fit { w with body := w.body ++ le64 ts } v hfit2,
      Bool.and_self, if_true]
    have hfit3 : 14 +
        ({ w with body := (w.body ++ le64 ts) ++ le64 v, ntail := w.ntail + 1 } :
          DataBlockWriter).body.length + 16 * rest.length ≤
        ({ w with body := (w.body ++ le64 ts) ++ le64 v, ntail := w.ntail + 1 } :
          DataBlockWriter).cap := by
      simp only [List.length_append, le64, length_leBytes]
      omega
    obtain ⟨ih1, ih2, ih3⟩ := commitTail_spec rest
      { w with body := (w.body ++ le64 ts) ++ le64 v, ntail := w.ntail + 1 } hfit3
    refine ⟨?_, ?_, ?_⟩
    · rw [ih1]
      simp
      omega
    · rw [ih2]
    · rw [ih3]

/-- `commit` of a writer satisfying the light invariant never panics and
leaves `nchunks * 16 + ntail = write_index + ntail`. -/
theorem commit_of_inv (w : DataBlockWriter) (hw : CInv w) :
    ∃ wn, w.commit = some wn ∧
      wn.2 * 16 + wn.1.ntail = w.write_index + w.ntail := by
  obtain ⟨h1, h2, h3, h4⟩ := hw
  by_cases hbt : w.write_index % 16 = 0
  · refine ⟨(w, w.write_index / 16), ?_, ?_⟩
    · simp [DataBlockWriter.commit, hbt]
    · show w.write_index / 16 * 16 + w.ntail = w.write_index + w.ntail
      have := Nat.div_add_mod w.write_index 16
      omega
  · have hsp := h4 hbt
    have hnt : w.ntail = 0 := by
      by_cases h : w.ntail = 0
      · exact h
      · exact absurd (h3 h) hsp
    have hzlen : (w.ts_writebuf.zip w.val_writebuf).length = w.write_index % 16 := by
      rw [List.length_zip, h1, h2]
      exact Nat.min_self _
    have hmod : w.write_index % 16 < 16 := Nat.mod_lt _ (by norm_num)
    have hfit : 14 + w.body.length +
        16 * (w.ts_writebuf.zip w.val_writebuf).length ≤ w.cap := by
      simp only [DataBlockWriter.space_left, MARGIN] at hsp
      rw [hzlen]
      omega
    obtain ⟨c1, c2, c3⟩ := commitTail_spec (w.ts_writebuf.zip w.val_writebuf) w hfit
    refine ⟨(commitTail w (w.ts_writebuf.zip w.val_writebuf), w.write_index / 16),
      ?_, ?_⟩
    · simp [DataBlockWriter.commit, hbt, hnt]
    · rw [c1, hzlen, hnt]
      have := Nat.div_add_mod w.write_index 16
      omega

/-- C5: provided no chunk flush fails (so every `AKU_EOVERFLOW` of the run
comes from the raw-tail path), `commit` succeeds and the patched header
satisfies `nchunks * CHUNK_SIZE + ntail = ` number of `AKU_SUCCESS` puts. -/
theorem C5_header_accounting (cap : Nat) (S : List (Nat × Nat))
    (hok : runPutsOk (DataBlockWriter.mk0 cap) S = true) :
    ∃ wn, (runPuts (DataBlockWriter.mk0 cap) S).1.commit = some wn ∧
      wn.2 * 16 + wn.1.ntail =
        countSuccess (runPuts (DataBlockWriter.mk0 cap) S).2 := by
  have hinv0 : CInv (DataBlockWriter.mk0 cap) :=
    ⟨rfl, rfl, fun h => absurd rfl h, fun h => absurd rfl h⟩
  obtain ⟨hinv, hacc⟩ := runPuts_ok_inv S (DataBlockWriter.mk0 cap) hinv0 hok
  obtain ⟨wn, hc, he⟩ := commit_of_inv _ hinv
  refine ⟨wn, hc, ?_⟩
  rw [he, hacc]
  simp [DataBlockWriter.mk0]

theorem C5_header_accounting_witness :
    runPutsOk (DataBlockWriter.mk0 64) [(1, 2)] = true ∧
      (∃ wn, (runPuts (DataBlockWriter.mk0 64) [(1, 2)]).1.commit = some wn ∧
        wn.2 * 16 + wn.1.ntail =
          countSuccess (runPuts (DataBlockWriter.mk0 64) [(1, 2)]).2) :=
  ⟨by decide, C5_header_accounting 64 [(1, 2)] (by decide)⟩

/-! ## C3: block round-trip machinery -/

theorem zip_map_fst_snd {α β : Type} : ∀ (l : List (α × β)),
    (l.map Prod.fst).zip (l.map Prod.snd) = l
  | [] => rfl
  | (a, b) :: rest => by
    simp only [List.map_cons, List.zip_cons_cons, zip_map_fst_snd rest]

theorem rawBytes_append : ∀ (l1 l2 : List (Nat × Nat)),
    rawBytes (l1 ++ l2) = rawBytes l1 ++ rawBytes l2
  | [], l2 => rfl
  | (ts, v) :: rest, l2 => by
    simp only [List.cons_append, rawBytes, List.append_eq, rawBytes_append rest l2,
      List.append_assoc]

theorem readMany_add : ∀ (m n : Nat) (r r1 rf : DataBlockReader)
    (o1 o2 : List (AkuStatus × Nat × Nat)),
    readMany r m = some (o1, r1) → readMany r1 n = some (o2, rf) →
    readMany r (m + n) = some (o1 ++ o2, rf)
  | 0, n, r, r1, rf, o1, o2, h1, h2 => by
    simp only [readMany, Option.some.injEq, Prod.mk.injEq] at h1
    obtain ⟨ho, hr⟩ := h1
    subst ho
    subst hr
    simpa using h2
  | m + 1, n, r, r1, rf, o1, o2, h1, h2 => by
    have hmn : m + 1 + n = (m + n) + 1 := by omega
    rw [hmn]
    simp only [readMany] at h1 ⊢
    cases hnx : r.next with
    | none =>
      rw [hnx] at h1
      exact Option.noConfusion h1
    | some p =>
      obtain ⟨out, ra⟩ := p
      simp only [hnx] at h1 ⊢
      cases hrm : readMany ra m with
      | none =>
        rw [hrm] at h1
        exact Option.noConfusion h1
      | some q =>
        obtain ⟨outs, rmid⟩ := q
        simp only [hrm, Option.some.injEq, Prod.mk.injEq] at h1
        obtain ⟨ho, hr⟩ := h1
        subst hr
        simp only [readMany_add m n ra rmid rf outs o2 hrm h2, ← ho,
          List.cons_append]

theorem putRaw64_of_nofit (w : DataBlockWriter) (x : Nat)
    (h : ¬ 14 + w.body.length + 8 ≤ w.cap) :
    w.putRaw64 x = (false, w) := by
  simp [DataBlockWriter.putRaw64, h]

/-- A successful chunk flush appends exactly the two compressed streams and
resets the staging state. -/
theorem flushChunk_success_char (w1 : DataBlockWriter)
    (hs : w1.flushChunk.1 = AkuStatus.success) :
    w1.flushChunk.2 =
      { w1 with
          body := w1.body ++ (deltaRLE_encode w1.ts_prev w1.ts_writebuf).1 ++
            (compressPairs w1.fcm w1.val_writebuf).1,
          ts_writebuf := [], val_writebuf := [],
          ts_prev := (deltaRLE_encode w1.ts_prev w1.ts_writebuf).2,
          fcm := (compressPairs w1.fcm w1.val_writebuf).2 } := by
  by_cases h1 : (w1.tryAppend (deltaRLE_encode w1.ts_prev w1.ts_writebuf).1).1 = true
  · by_cases h2 : ((w1.tryAppend (deltaRLE_encode w1.ts_prev w1.ts_writebuf).1).2.tryAppend
        (compressPairs w1.fcm w1.val_writebuf).1).1 = true
    · obtain ⟨hb1, _⟩ := tryAppend_true h1
      obtain ⟨hb2, _⟩ := tryAppend_true h2
      obtain ⟨hc1, hn1, hwi1, hts1, hvl1, hp1, hf1, _⟩ :=
        tryAppend_fields w1 (deltaRLE_encode w1.ts_prev w1.ts_writebuf).1
      obtain ⟨hc2, hn2, hwi2, hts2, hvl2, hp2, hf2, _⟩ :=
        tryAppend_fields (w1.tryAppend (deltaRLE_encode w1.ts_prev w1.ts_writebuf).1).2
          (compressPairs w1.fcm w1.val_writebuf).1
      simp only [DataBlockWriter.flushChunk, h1, h2, if_true]
      simp only [DataBlockWriter.mk.injEq, hc2, hc1, hb2, hb1, hn2, hn1, hwi2, hwi1,
        List.append_assoc, and_self, and_true, true_and]
    · have hov : w1.flushChunk.1 = AkuStatus.eoverflow := by
        simp only [DataBlockWriter.flushChunk, h1, h2, if_true, if_false,
          Bool.false_eq_true]
      rw [hov] at hs
      exact AkuStatus.noConfusion hs
  · have hov : w1.flushChunk.1 = AkuStatus.eoverflow := by
      simp only [DataBlockWriter.flushChunk, h1, if_false, Bool.false_eq_true]
    rw [hov] at hs
    exact AkuStatus.noConfusion hs

theorem put_room_notfull_char (w : DataBlockWriter) (ts v : Nat)
    (hroom : w.room_for_chunk = true) (hnf : ¬ (w.write_index + 1) % 16 = 0) :
    w.put ts v =
      (.success,
        { w with ts_writebuf := w.ts_writebuf ++ [ts],
                 val_writebuf := w.val_writebuf ++ [v],
                 write_index := w.write_index + 1 }) := by
  simp [DataBlockWriter.put, hroom, hnf]

theorem put_room_full_char (w : DataBlockWriter) (ts v : Nat)
    (hroom : w.room_for_chunk = true) (hf : (w.write_index + 1) % 16 = 0) :
    w.put ts v =
      ({ w with ts_writebuf := w.ts_writebuf ++ [ts],
                val_writebuf := w.val_writebuf ++ [v],
                write_index := w.write_index + 1 } : DataBlockWriter).flushChunk := by
  simp [DataBlockWriter.put, hroom, hf]

theorem put_tail_success_char (w : DataBlockWriter) (ts v : Nat)
    (hroom : w.room_for_chunk = false)
    (hs : (w.put ts v).1 = AkuStatus.success) :
    w.put ts v =
      (.success,
        { w with body := (w.body ++ le64 ts) ++ le64 v, ntail := w.ntail + 1 }) := by
  by_cases hfit1 : 14 + w.body.length + 8 ≤ w.cap
  · by_cases hfit2 : 14 + ({ w with body := w.body ++ le64 ts } :
        DataBlockWriter).body.length + 8 ≤
        ({ w with body := w.body ++ le64 ts } : DataBlockWriter).cap
    · simp only [DataBlockWriter.put, hroom, Bool.false_eq_true, if_false,
        putRaw64_of_fit w ts hfit1,
        putRaw64_of_fit { w with body := w.body ++ le64 ts } v hfit2,
        Bool.and_self, if_true]
    · have hov : (w.put ts v).1 = AkuStatus.eoverflow := by
        simp only [DataBlockWriter.put, hroom, Bool.false_eq_true, if_false,
          putRaw64_of_fit w ts hfit1,
          putRaw64_of_nofit { w with body := w.body ++ le64 ts } v hfit2,
          Bool.and_false, if_false]
      rw [hov] at hs
      exact AkuStatus.noConfusion hs
  · have hov : (w.put ts v).1 = AkuStatus.eoverflow := by
      simp only [DataBlockWriter.put, hroom, Bool.false_eq_true, if_false,
        putRaw64_of_nofit w ts hfit1, putRaw64_of_nofit w v hfit1,
        Bool.false_and, if_false]
    rw [hov] at hs
    exact AkuStatus.noConfusion hs

theorem encChunks_succ (c : Nat) (prev : Nat) (p : FcmPredictor)
    (S : List (Nat × Nat)) :
    encChunks (c + 1) prev p S =
      (deltaRLE_encode prev ((S.take 16).map Prod.fst)).1 ++
        ((compressPairs p ((S.take 16).map Prod.snd)).1 ++
          encChunks c (deltaRLE_encode prev ((S.take 16).map Prod.fst)).2
            (compressPairs p ((S.take 16).map Prod.snd)).2 (S.drop 16)) := by
  simp only [encChunks, List.append_assoc]

theorem encChunksState_succ (c : Nat) (prev : Nat) (p : FcmPredictor)
    (S : List (Nat × Nat)) :
    encChunksState (c + 1) prev p S =
      encChunksState c (deltaRLE_encode prev ((S.take 16).map Prod.fst)).2
        (compressPairs p ((S.take 16).map Prod.snd)).2 (S.drop 16) := rfl

theorem encChunks_snoc : ∀ (c : Nat) (prev : Nat) (p : FcmPredictor)
    (S chunk : List (Nat × Nat)), S.length = 16 * c → chunk.length = 16 →
    encChunks (c + 1) prev p (S ++ chunk) =
      encChunks c prev p S ++
        ((deltaRLE_encode (encChunksState c prev p S).1 (chunk.map Prod.fst)).1 ++
          (compressPairs (encChunksState c prev p S).2 (chunk.map Prod.snd)).1)
  | 0, prev, p, S, chunk, hS, hchunk => by
    have hS0 : S = [] := List.eq_nil_of_length_eq_zero (by omega)
    subst hS0
    simp only [List.nil_append, encChunks, encChunksState,
      List.take_of_length_le (le_of_eq hchunk), List.drop_of_length_le (le_of_eq hchunk),
      List.append_nil]
  | c + 1, prev, p, S, chunk, hS, hchunk => by
    have h16 : 16 ≤ S.length := by omega
    have htake : (S ++ chunk).take 16 = S.take 16 := List.take_append_of_le_length h16
    have hdrop : (S ++ chunk).drop 16 = S.drop 16 ++ chunk := List.drop_append_of_le_length h16
    have hlen : (S.drop 16).length = 16 * c := by
      rw [List.length_drop]
      omega
    rw [encChunks_succ (c + 1) prev p (S ++ chunk), htake, hdrop,
      encChunks_snoc c _ _ (S.drop 16) chunk hlen hchunk,
      encChunks_succ c prev p S, encChunksState_succ c prev p S]
    simp only [List.append_assoc]

theorem encChunksState_snoc : ∀ (c : Nat) (prev : Nat) (p : FcmPredictor)
    (S chunk : List (Nat × Nat)), S.length = 16 * c → chunk.length = 16 →
    encChunksState (c + 1) prev p (S ++ chunk) =
      ((deltaRLE_encode (encChunksState c prev p S).1 (chunk.map Prod.fst)).2,
        (compressPairs (encChunksState c prev p S).2 (chunk.map Prod.snd)).2)
  | 0, prev, p, S, chunk, hS, hchunk => by
    have hS0 : S = [] := List.eq_nil_of_length_eq_zero (by omega)
    subst hS0
    simp only [List.nil_append, encChunksState,
      List.take_of_length_le (le_of_eq hchunk)]
  | c + 1, prev, p, S, chunk, hS, hchunk => by
    have h16 : 16 ≤ S.length := by omega
    have htake : (S ++ chunk).take 16 = S.take 16 := List.take_append_of_le_length h16
    have hdrop : (S ++ chunk).drop 16 = S.drop 16 ++ chunk := List.drop_append_of_le_length h16
    have hlen : (S.drop 16).length = 16 * c := by
      rw [List.length_drop]
      omega
    rw [encChunksState_succ (c + 1) prev p (S ++ chunk), htake, hdrop,
      encChunksState_snoc c _ _ (S.drop 16) chunk hlen hchunk,
      encChunksState_succ c prev p S]

/-- One successful `put` moves the sample into the staging buffer, a flushed
chunk, or the raw tail, preserving the writer-state invariant. -/
theorem put_winv_step (w : DataBlockWriter) (ts v cap : Nat)
    (chunked staged tailed : List (Nat × Nat))
    (hw : WInv w cap chunked staged tailed)
    (hs : (w.put ts v).1 = AkuStatus.success) :
    ∃ chunked' staged' tailed',
      WInv (w.put ts v).2 cap chunked' staged' tailed' ∧
      chunked' ++ (staged' ++ tailed') = (chunked ++ (staged ++ tailed)) ++ [(ts, v)] := by
  obtain ⟨hcap, hch16, hst16, hwi, hnt, htsb, hvlb, htl, hstg, hbody, hprev, hfcm⟩ := hw
  have hclen : chunked.length = 16 * (chunked.length / 16) := by omega
  by_cases hroom : w.room_for_chunk = true
  · have htl0 : tailed = [] := by
      by_contra hne
      exact (room_iff.mp hroom) ((htl hne).2)
    by_cases hfull : (w.write_index + 1) % 16 = 0
    · have hst15 : staged.length = 15 := by
        rw [hwi] at hfull
        omega
      rw [put_room_full_char w ts v hroom hfull] at hs ⊢
      rw [flushChunk_success_char _ hs]
      refine ⟨chunked ++ (staged ++ [(ts, v)]), [], [], ?_, by simp [htl0]⟩
      have hlen16 : (staged ++ [(ts, v)]).length = 16 := by
        simp [hst15]
      have hmapf : staged.map Prod.fst ++ [ts] = (staged ++ [(ts, v)]).map Prod.fst := by
        simp
      have hmaps : staged.map Prod.snd ++ [v] = (staged ++ [(ts, v)]).map Prod.snd := by
        simp
      have hdiv : (chunked ++ (staged ++ [(ts, v)])).length / 16 =
          chunked.length / 16 + 1 := by
        simp only [List.length_append, hlen16]
        omega
      refine ⟨hcap, ?_, by simp, ?_, ?_, rfl, rfl,
        fun h => absurd rfl h, fun h => absurd rfl h, ?_, ?_, ?_⟩
      · simp only [List.length_append, hlen16]
        omega
      · show w.write_index + 1 = (chunked ++ (staged ++ [(ts, v)])).length + [].length
        simp only [List.length_append, hlen16, List.length_nil, hwi]
        omega
      · show w.ntail = ([] : List (Nat × Nat)).length
        rw [hnt, htl0]
      · show w.body ++ (deltaRLE_encode w.ts_prev (w.ts_writebuf ++ [ts])).1 ++
            (compressPairs w.fcm (w.val_writebuf ++ [v])).1 =
          encChunks ((chunked ++ (staged ++ [(ts, v)])).length / 16) 0 .init
              (chunked ++ (staged ++ [(ts, v)])) ++ rawBytes []
        rw [hdiv, hbody, htl0,
          encChunks_snoc (chunked.length / 16) 0 .init chunked (staged ++ [(ts, v)])
            hclen hlen16]
        rw [htsb, hvlb, hmapf, hmaps, hprev, hfcm]
        simp [rawBytes, List.append_assoc]
      · show (deltaRLE_encode w.ts_prev (w.ts_writebuf ++ [ts])).2 =
          (encChunksState ((chunked ++ (staged ++ [(ts, v)])).length / 16) 0 .init
            (chunked ++ (staged ++ [(ts, v)]))).1
        rw [hdiv,
          encChunksState_snoc (chunked.length / 16) 0 .init chunked (staged ++ [(ts, v)])
            hclen hlen16]
        rw [htsb, hmapf, hprev]
      · show (compressPairs w.fcm (w.val_writebuf ++ [v])).2 =
          (encChunksState ((chunked ++ (staged ++ [(ts, v)])).length / 16) 0 .init
            (chunked ++ (staged ++ [(ts, v)]))).2
        rw [hdiv,
          encChunksState_snoc (chunked.length / 16) 0 .init chunked (staged ++ [(ts, v)])
            hclen hlen16]
        rw [hvlb, hmaps, hfcm]
    · rw [put_room_notfull_char w ts v hroom hfull]
      refine ⟨chunked, staged ++ [(ts, v)], tailed, ?_, by simp [htl0]⟩
      have hstlt : (staged ++ [(ts, v)]).length < 16 := by
        rw [hwi] at hfull
        simp only [List.length_append, List.length_singleton]
        omega
      refine ⟨hcap, hch16, hstlt, ?_, hnt, ?_, ?_, ?_, ?_, hbody, hprev, hfcm⟩
      · show w.write_index + 1 = chunked.length + (staged ++ [(ts, v)]).length
        simp only [List.length_append, List.length_singleton, hwi]
        omega
      · show w.ts_writebuf ++ [ts] = (staged ++ [(ts, v)]).map Prod.fst
        rw [htsb]
        simp
      · show w.val_writebuf ++ [v] = (staged ++ [(ts, v)]).map Prod.snd
        rw [hvlb]
        simp
      · intro hne
        exact absurd hne (by simp [htl0])
      · intro _
        exact room_iff.mp hroom
  · have hroomf : w.room_for_chunk = false := by
      revert hroom
      cases w.room_for_chunk <;> simp
    have hsp : w.space_left < MARGIN := by
      by_contra hc
      exact hroom (room_iff.mpr hc)
    have hstg0 : staged = [] := by
      by_contra hne
      exact (hstg hne) hsp
    rw [put_tail_success_char w ts v hroomf hs]
    refine ⟨chunked, [], tailed ++ [(ts, v)], ?_, by simp [hstg0]⟩
    refine ⟨hcap, hch16, by simp, ?_, ?_, ?_, ?_, ?_, fun h => absurd rfl h, ?_,
      hprev, hfcm⟩
    · show w.write_index = chunked.length + ([] : List (Nat × Nat)).length
      rw [hwi, hstg0]
    · show w.ntail + 1 = (tailed ++ [(ts, v)]).length
      simp [hnt]
    · show w.ts_writebuf = ([] : List (Nat × Nat)).map Prod.fst
      rw [htsb, hstg0]
    · show w.val_writebuf = ([] : List (Nat × Nat)).map Prod.snd
      rw [hvlb, hstg0]
    · intro _
      refine ⟨rfl, ?_⟩
      have hle : w.body.length ≤ ((w.body ++ le64 ts) ++ le64 v).length := by
        simp
      calc ({ w with body := (w.body ++ le64 ts) ++ le64 v,
                     ntail := w.ntail + 1 } : DataBlockWriter).space_left
          ≤ w.space_left := space_left_le_of_le rfl hle
        _ < MARGIN := hsp
    · show (w.body ++ le64 ts) ++ le64 v =
        encChunks (chunked.length / 16) 0 .init chunked ++ rawBytes (tailed ++ [(ts, v)])
      rw [hbody, rawBytes_append]
      simp [rawBytes, List.append_assoc]

/-- An all-`SUCCESS` run of `put` calls leaves the writer in a state
described by the invariant, with the accepted samples split into flushed
chunks, the staging buffer and the raw tail, in put order. -/
theorem runPuts_winv : ∀ (S : List (Nat × Nat)) (w : DataBlockWriter) (cap : Nat)
    (chunked staged tailed : List (Nat × Nat)),
    WInv w cap chunked staged tailed →
    (runPuts w S).2 = List.replicate S.length AkuStatus.success →
    ∃ chunked' staged' tailed',
      WInv (runPuts w S).1 cap chunked' staged' tailed' ∧
      chunked' ++ (staged' ++ tailed') = (chunked ++ (staged ++ tailed)) ++ S
  | [], w, cap, c0, s0, t0, hw, _ => ⟨c0, s0, t0, hw, by simp [runPuts]⟩
  | (ts, v) :: rest, w, cap, c0, s0, t0, hw, hall => by
    rw [runPuts_cons] at hall ⊢
    simp only [List.length_cons, List.replicate_succ, List.cons.injEq] at hall
    obtain ⟨hs, hrest⟩ := hall
    obtain ⟨c1, s1, t1, hw1, heq1⟩ := put_winv_step w ts v cap c0 s0 t0 hw hs
    obtain ⟨c2, s2, t2, hw2, heq2⟩ :=
      runPuts_winv rest (w.put ts v).2 cap c1 s1 t1 hw1 hrest
    refine ⟨c2, s2, t2, hw2, ?_⟩
    rw [heq2, heq1]
    simp [List.append_assoc]

/-- Record form of the tail-flush loop: under the 16-bytes-per-sample
estimate it appends the raw bytes of all staged samples. -/
theorem commitTail_char : ∀ (ps : List (Nat × Nat)) (w : DataBlockWriter),
    14 + w.body.length + 16 * ps.length ≤ w.cap →
    commitTail w ps =
      { w with body := w.body ++ rawBytes ps, ntail := w.ntail + ps.length }
  | [], w, _ => by
    have hb : w.body ++ rawBytes [] = w.body := by
      simp [rawBytes]
    have hn : w.ntail + ([] : List (Nat × Nat)).length = w.ntail := rfl
    show w = _
    rw [hb, hn]
  | (ts, v) :: rest, w, h => by
    simp only [List.length_cons] at h
    have hfit1 : 14 + w.body.length + 8 ≤ w.cap := by omega
    have hfit2 : 14 + ({ w with body := w.body ++ le64 ts } :
        DataBlockWriter).body.length + 8 ≤
        ({ w with body := w.body ++ le64 ts } : DataBlockWriter).cap := by
      simp only [List.length_append, le64, length_leBytes]
      omega
    have hfit3 : 14 +
        ({ w with body := (w.body ++ le64 ts) ++ le64 v, ntail := w.ntail + 1 } :
          DataBlockWriter).body.length + 16 * rest.length ≤
        ({ w with body := (w.body ++ le64 ts) ++ le64 v, ntail := w.ntail + 1 } :
          DataBlockWriter).cap := by
      simp only [List.length_append, le64, length_leBytes]
      omega
    simp only [commitTail, putRaw64_of_fit w ts hfit1,
      putRaw64_of_fit { w with body := w.body ++ le64 ts } v hfit2,
      Bool.and_self, if_true]
    rw [commitTail_char rest
      { w with body := (w.body ++ le64 ts) ++ le64 v, ntail := w.ntail + 1 } hfit3]
    clear hfit1 hfit2 hfit3 h
    simp only [DataBlockWriter.mk.injEq, rawBytes, List.append_assoc, true_and,
      and_true, List.length_cons]
    omega

/-- `commit` of a writer in the invariant state: never panics, returns
`nchunks = |chunked| / 16`, and the final body is the chunk stream followed
by the raw samples (first the tail ones, then the flushed staging buffer —
at most one of the two is non-empty). -/
theorem commit_winv (w : DataBlockWriter) (cap : Nat)
    (chunked staged tailed : List (Nat × Nat))
    (hw : WInv w cap chunked staged tailed) :
    ∃ wf, w.commit = some (wf, chunked.length / 16) ∧
      wf.cap = cap ∧
      wf.body = encChunks (chunked.length / 16) 0 .init chunked ++
        rawBytes (tailed ++ staged) ∧
      wf.ntail = tailed.length + staged.length ∧
      wf.write_index = w.write_index := by
  obtain ⟨hcap, hch16, hst16, hwi, hnt, htsb, hvlb, htl, hstg, hbody, hprev, hfcm⟩ := hw
  have hbuf : w.write_index % 16 = staged.length := by
    rw [hwi]
    omega
  have hdiv : w.write_index / 16 = chunked.length / 16 := by
    rw [hwi]
    omega
  by_cases hst0 : staged.length = 0
  · have hstnil : staged = [] := List.eq_nil_of_length_eq_zero hst0
    refine ⟨w, ?_, hcap, ?_, ?_, rfl⟩
    · have hbt : ¬ w.write_index % 16 ≠ 0 := by
        rw [hbuf, hst0]
        simp
      simp [DataBlockWriter.commit, hbt, hdiv]
    · rw [hbody, hstnil, List.append_nil]
    · rw [hnt, hstnil]
      rfl
  · have hstnil : staged ≠ [] := by
      intro hc
      rw [hc] at hst0
      exact hst0 rfl
    have hnsp : ¬ w.space_left < MARGIN := hstg hstnil
    have htl0 : tailed = [] := by
      by_contra hne
      exact hnsp (htl hne).2
    have hnt0 : w.ntail = 0 := by
      rw [hnt, htl0]
      rfl
    have hzip : w.ts_writebuf.zip w.val_writebuf = staged := by
      rw [htsb, hvlb, zip_map_fst_snd]
    have hfit : 14 + w.body.length + 16 * staged.length ≤ w.cap := by
      simp only [DataBlockWriter.space_left, MARGIN] at hnsp
      omega
    have hbt : w.write_index % 16 ≠ 0 := by
      rw [hbuf]
      exact hst0
    refine ⟨commitTail w staged, ?_, ?_, ?_, ?_, ?_⟩
    · simp [DataBlockWriter.commit, hbt, hnt0, hzip, hdiv]
    · rw [commitTail_char staged w hfit]
      exact hcap
    · rw [commitTail_char staged w hfit]
      show w.body ++ rawBytes staged = _
      rw [hbody, htl0, rawBytes_append]
      simp [rawBytes, List.append_assoc]
    · rw [commitTail_char staged w hfit]
      show w.ntail + staged.length = tailed.length + staged.length
      rw [hnt]
    · rw [commitTail_char staged w hfit]

theorem get_main_size_blockBytes (w : DataBlockWriter) (id nchunks : Nat) :
    get_main_size (w.blockBytes id nchunks) = nchunks % 2 ^ 16 * 16 := by
  have h2 : (le16 AKUMULI_VERSION).length = 2 := length_leBytes 2 _
  have hdrop : (w.blockBytes id nchunks).drop 2 =
      le16 (nchunks % 2 ^ 16) ++ (le16 (w.ntail % 2 ^ 16) ++ (le64 id ++ w.body)) := by
    simp only [DataBlockWriter.blockBytes, List.append_assoc]
    exact List.drop_left' h2
  have hlt : nchunks % 2 ^ 16 < 2 ^ (8 * 2) := by
    norm_num
    exact Nat.mod_lt _ (by norm_num)
  simp only [get_main_size, wordAt, hdrop, le16, readBytesLE_leBytes_of_lt hlt]

theorem get_total_size_blockBytes (w : DataBlockWriter) (id nchunks : Nat) :
    get_total_size (w.blockBytes id nchunks) =
      w.ntail % 2 ^ 16 + nchunks % 2 ^ 16 * 16 := by
  have h2 : (le16 AKUMULI_VERSION).length = 2 := length_leBytes 2 _
  have h4 : (le16 AKUMULI_VERSION ++ le16 (nchunks % 2 ^ 16)).length = 4 := by
    simp [le16, length_leBytes]
  have hdrop2 : (w.blockBytes id nchunks).drop 2 =
      le16 (nchunks % 2 ^ 16) ++ (le16 (w.ntail % 2 ^ 16) ++ (le64 id ++ w.body)) := by
    simp only [DataBlockWriter.blockBytes, List.append_assoc]
    exact List.drop_left' h2
  have hdrop4 : (w.blockBytes id nchunks).drop 4 =
      le16 (w.ntail % 2 ^ 16) ++ (le64 id ++ w.body) := by
    simp only [DataBlockWriter.blockBytes]
    rw [show le16 AKUMULI_VERSION ++ le16 (nchunks % 2 ^ 16) ++ le16 (w.ntail % 2 ^ 16) ++
        le64 id ++ w.body =
      (le16 AKUMULI_VERSION ++ le16 (nchunks % 2 ^ 16)) ++
        (le16 (w.ntail % 2 ^ 16) ++ (le64 id ++ w.body)) by
        simp [List.append_assoc]]
    exact List.drop_left' h4
  have hlt1 : nchunks % 2 ^ 16 < 2 ^ (8 * 2) := by
    norm_num
    exact Nat.mod_lt _ (by norm_num)
  have hlt2 : w.ntail % 2 ^ 16 < 2 ^ (8 * 2) := by
    norm_num
    exact Nat.mod_lt _ (by norm_num)
  simp only [get_total_size, wordAt, hdrop2, hdrop4, le16,
    readBytesLE_leBytes_of_lt hlt1, readBytesLE_leBytes_of_lt hlt2]

theorem drop14_blockBytes (w : DataBlockWriter) (id nchunks : Nat) :
    (w.blockBytes id nchunks).drop 14 = w.body := by
  have h14 : (le16 AKUMULI_VERSION ++ le16 (nchunks % 2 ^ 16) ++
      le16 (w.ntail % 2 ^ 16) ++ le64 id).length = 14 := by
    simp [le16, le64, length_leBytes]
  simp only [DataBlockWriter.blockBytes]
  rw [show le16 AKUMULI_VERSION ++ le16 (nchunks % 2 ^ 16) ++ le16 (w.ntail % 2 ^ 16) ++
      le64 id ++ w.body =
    (le16 AKUMULI_VERSION ++ le16 (nchunks % 2 ^ 16) ++ le16 (w.ntail % 2 ^ 16) ++
      le64 id) ++ w.body from rfl]
  exact List.drop_left' h14

theorem next_end_char (r : DataBlockReader)
    (h : ¬ r.read_index < get_total_size r.block) :
    r.next = some ((.enodata, 0, 0), r) := by
  have hge1 : ¬ r.read_index < get_main_size r.block := by
    simp only [get_total_size, get_main_size] at h ⊢
    omega
  simp only [DataBlockReader.next, hge1, h, if_false]

theorem next_tail_char (r : DataBlockReader) (ts v : Nat) (rest : List Nat)
    (hge : ¬ r.read_index < get_main_size r.block)
    (hlt : r.read_index < get_total_size r.block)
    (hsr : r.srest = le64 ts ++ (le64 v ++ rest))
    (hts : ts < 2 ^ (8 * 8)) (hv : v < 2 ^ (8 * 8)) :
    r.next = some ((.success, ts, v),
      { r with srest := rest, read_index := r.read_index + 1 }) := by
  simp only [DataBlockReader.next, hge, hlt, if_true, if_false, hsr, le64,
    readBytesLE_leBytes_of_lt hts, readBytesLE_leBytes_of_lt hv]

theorem next_even_char (r : DataBlockReader) (fb : Nat) (bs : List Nat)
    (diff : Nat) (bs2 : List Nat)
    (hlt : r.read_index < get_main_size r.block)
    (hnz : ¬ r.read_index % 16 = 0)
    (hev : r.iter % 2 = 0)
    (hsr : r.srest = fb :: bs)
    (hdec : decode_value (fb >>> 4) bs = some (diff, bs2)) :
    r.next = some ((.success, r.read_buffer.getD (r.read_index % 16) 0,
        r.fcm.predict_next ^^^ diff),
      { r with srest := bs2,
               fcm := r.fcm.update (r.fcm.predict_next ^^^ diff),
               iter := r.iter + 1, flags := fb,
               read_index := r.read_index + 1 }) := by
  simp only [DataBlockReader.next, hlt, hnz, hev, hsr, hdec, if_true, if_false,
    fcmUnstep]

theorem next_odd_char (r : DataBlockReader) (diff : Nat) (bs2 : List Nat)
    (hlt : r.read_index < get_main_size r.block)
    (hnz : ¬ r.read_index % 16 = 0)
    (hodd : r.iter % 2 = 1)
    (hdec : decode_value (r.flags &&& 0xF) r.srest = some (diff, bs2)) :
    r.next = some ((.success, r.read_buffer.getD (r.read_index % 16) 0,
        r.fcm.predict_next ^^^ diff),
      { r with srest := bs2,
               fcm := r.fcm.update (r.fcm.predict_next ^^^ diff),
               iter := r.iter + 1, flags := r.flags,
               read_index := r.read_index + 1 }) := by
  have hne : ¬ r.iter % 2 = 0 := by omega
  simp only [DataBlockReader.next, hlt, hnz, hne, hdec, if_true, if_false,
    fcmUnstep]

theorem next_batch_char (r : DataBlockReader) (tss : List Nat)
    (prev1 rl1 rd1 : Nat) (bs1 : List Nat) (fb : Nat) (bs : List Nat)
    (diff : Nat) (bs2 : List Nat)
    (hlt : r.read_index < get_main_size r.block)
    (hz : r.read_index % 16 = 0)
    (hev : r.iter % 2 = 0)
    (hbatch : deltaRLE_decode 16 r.ts_prev r.runLeft r.runDelta r.srest =
      some (tss, prev1, rl1, rd1, bs1))
    (hsr : bs1 = fb :: bs)
    (hdec : decode_value (fb >>> 4) bs = some (diff, bs2)) :
    r.next = some ((.success, tss.getD 0 0, r.fcm.predict_next ^^^ diff),
      { r with read_buffer := tss, ts_prev := prev1, runLeft := rl1,
               runDelta := rd1, srest := bs2,
               fcm := r.fcm.update (r.fcm.predict_next ^^^ diff),
               iter := r.iter + 1, flags := fb,
               read_index := r.read_index + 1 }) := by
  simp only [DataBlockReader.next, hlt, hz, hev, hbatch, hsr, hdec, if_true,
    if_false, fcmUnstep]

/-- Reading the values of a chunk after the first pair: each pair of `next`
calls consumes one flag byte and two encoded diffs, returning the buffered
timestamps and the decoded values. -/
theorem readValsAux : ∀ (vals tsr : List Nat) (r : DataBlockReader)
    (suffix : List Nat),
    vals.length % 2 = 0 → vals.length ≤ 14 →
    tsr.length = vals.length →
    (∀ x ∈ vals, x < U64) → FcmPredictor.Wf r.fcm →
    r.srest = (compressPairs r.fcm vals).1 ++ suffix →
    r.iter = r.read_index →
    (vals ≠ [] → r.read_index % 16 = 16 - vals.length) →
    r.read_index + vals.length ≤ get_main_size r.block →
    (∀ j, j < vals.length →
      r.read_buffer.getD (r.read_index % 16 + j) 0 = tsr.getD j 0) →
    ∃ rf, readMany r vals.length =
        some ((tsr.zip vals).map (fun q => (AkuStatus.success, q.1, q.2)), rf) ∧
      rf.block = r.block ∧ rf.srest = suffix ∧
      rf.read_index = r.read_index + vals.length ∧
      rf.iter = rf.read_index ∧
      rf.fcm = (compressPairs r.fcm vals).2 ∧
      rf.ts_prev = r.ts_prev ∧ rf.runLeft = r.runLeft ∧
      rf.runDelta = r.runDelta ∧ rf.read_buffer = r.read_buffer
  | [], tsr, r, suffix, _, _, htsr, _, _, hsr, hit, _, _, _ => by
    have htsr0 : tsr = [] := List.eq_nil_of_length_eq_zero htsr
    subst htsr0
    refine ⟨r, ?_, rfl, ?_, rfl, hit.symm ▸ rfl, rfl, rfl, rfl, rfl, rfl⟩
    · simp [readMany]
    · simpa [compressPairs] using hsr
  | [a], tsr, r, suffix, hpar, _, _, _, _, _, _, _, _, _ => by
    simp at hpar
  | a :: b :: rest, tsr, r, suffix, hpar, hle14, htsr, hbnd, hwf, hsr, hit,
      hridx, hmain, hbuf => by
    obtain ⟨ta, tb, tsr', rfl⟩ : ∃ ta tb tsr', tsr = ta :: tb :: tsr' := by
      match tsr, htsr with
      | x :: y :: l, _ => exact ⟨x, y, l, rfl⟩
    have hridx' : r.read_index % 16 = 16 - (a :: b :: rest).length :=
      hridx (by simp)
    simp only [List.length_cons] at hpar hle14 htsr hridx' hmain hbuf ⊢
    have haU : a < U64 := hbnd a (by simp)
    have hbU : b < U64 := hbnd b (by simp)
    have hd1U : a ^^^ r.fcm.predict_next < U64 := xor_lt_U64 haU (hwf _)
    have hwf1 : (r.fcm.update a).Wf := wf_update hwf haU
    have hd2U : b ^^^ (r.fcm.update a).predict_next < U64 := xor_lt_U64 hbU (hwf1 _)
    have hwf2 : ((r.fcm.update a).update b).Wf := wf_update hwf1 hbU
    have hsr1 : r.srest =
        ((flagOf (a ^^^ r.fcm.predict_next) <<< 4) |||
            flagOf (b ^^^ (r.fcm.update a).predict_next)) ::
          (encode_value (a ^^^ r.fcm.predict_next) (flagOf (a ^^^ r.fcm.predict_next)) ++
            (encode_value (b ^^^ (r.fcm.update a).predict_next)
                (flagOf (b ^^^ (r.fcm.update a).predict_next)) ++
              ((compressPairs ((r.fcm.update a).update b) rest).1 ++ suffix))) := by
      rw [hsr]
      simp only [compressPairs, fcmStep, List.cons_append, List.append_assoc]
    have hdec1 : decode_value
        ((((flagOf (a ^^^ r.fcm.predict_next) <<< 4) |||
            flagOf (b ^^^ (r.fcm.update a).predict_next))) >>> 4)
        (encode_value (a ^^^ r.fcm.predict_next) (flagOf (a ^^^ r.fcm.predict_next)) ++
          (encode_value (b ^^^ (r.fcm.update a).predict_next)
              (flagOf (b ^^^ (r.fcm.update a).predict_next)) ++
            ((compressPairs ((r.fcm.update a).update b) rest).1 ++ suffix))) =
        some (a ^^^ r.fcm.predict_next,
          encode_value (b ^^^ (r.fcm.update a).predict_next)
              (flagOf (b ^^^ (r.fcm.update a).predict_next)) ++
            ((compressPairs ((r.fcm.update a).update b) rest).1 ++ suffix)) := by
      rw [hi_nibble _ (flagOf_lt _)]
      exact decode_encode_value _ hd1U _
    have hlt1 : r.read_index < get_main_size r.block := by omega
    have hnz1 : ¬ r.read_index % 16 = 0 := by omega
    have hev1 : r.iter % 2 = 0 := by
      rw [hit]
      have h2 : r.read_index % 16 % 2 = r.read_index % 2 :=
        Nat.mod_mod_of_dvd _ (by norm_num)
      omega
    have hn1 := next_even_char r _ _ _ _ hlt1 hnz1 hev1 hsr1 hdec1
    rw [xor_unstep a r.fcm.predict_next] at hn1
    have h0 : r.read_buffer.getD (r.read_index % 16) 0 = ta := by
      have := hbuf 0 (by omega)
      simpa using this
    rw [h0] at hn1
    have hmod1 : (r.read_index + 1) % 16 = r.read_index % 16 + 1 := by omega
    have hdec2 : decode_value
        ((((flagOf (a ^^^ r.fcm.predict_next) <<< 4) |||
            flagOf (b ^^^ (r.fcm.update a).predict_next))) &&& 0xF)
        (encode_value (b ^^^ (r.fcm.update a).predict_next)
            (flagOf (b ^^^ (r.fcm.update a).predict_next)) ++
          ((compressPairs ((r.fcm.update a).update b) rest).1 ++ suffix)) =
        some (b ^^^ (r.fcm.update a).predict_next,
          (compressPairs ((r.fcm.update a).update b) rest).1 ++ suffix) := by
      rw [lo_nibble _ (flagOf_lt _)]
      exact decode_encode_value _ hd2U _
    have hlt2 : r.read_index + 1 < get_main_size r.block := by omega
    have hnz2 : ¬ (r.read_index + 1) % 16 = 0 := by omega
    have hodd2 : (r.iter + 1) % 2 = 1 := by omega
    have hn2 := next_odd_char
      { r with srest := encode_value (b ^^^ (r.fcm.update a).predict_next)
                     (flagOf (b ^^^ (r.fcm.update a).predict_next)) ++
                   ((compressPairs ((r.fcm.update a).update b) rest).1 ++ suffix),
               fcm := r.fcm.update a, iter := r.iter + 1,
               flags := (flagOf (a ^^^ r.fcm.predict_next) <<< 4) |||
                   flagOf (b ^^^ (r.fcm.update a).predict_next),
               read_index := r.read_index + 1 } _ _ hlt2 hnz2 hodd2 hdec2
    rw [xor_unstep b (r.fcm.update a).predict_next] at hn2
    have h1 : r.read_buffer.getD ((r.read_index + 1) % 16) 0 = tb := by
      rw [hmod1]
      have := hbuf 1 (by omega)
      simpa using this
    rw [h1] at hn2
    obtain ⟨rf, hread, hblk, hsrf, hrif, hitf, hfcmf, htpf, hrlf, hrdf, hrbf⟩ :=
      readValsAux rest tsr'
        { r with srest := (compressPairs ((r.fcm.update a).update b) rest).1 ++ suffix,
                 fcm := (r.fcm.update a).update b, iter := r.iter + 1 + 1,
                 flags := (flagOf (a ^^^ r.fcm.predict_next) <<< 4) |||
                     flagOf (b ^^^ (r.fcm.update a).predict_next),
                 read_index := r.read_index + 1 + 1 }
        suffix (by omega) (by omega) (by omega)
        (fun x hx => hbnd x (by simp [hx])) hwf2 rfl
        (show r.iter + 1 + 1 = r.read_index + 1 + 1 by omega)
        (by
          intro hne
          have hpos : 0 < rest.length := List.length_pos.mpr hne
          show (r.read_index + 1 + 1) % 16 = 16 - rest.length
          omega)
        (show r.read_index + 1 + 1 + rest.length ≤ get_main_size r.block by omega)
        (by
          intro j hj
          show r.read_buffer.getD ((r.read_index + 1 + 1) % 16 + j) 0 = tsr'.getD j 0
          have heq : (r.read_index + 1 + 1) % 16 + j = r.read_index % 16 + (j + 2) := by
            omega
          rw [heq]
          have := hbuf (j + 2) (by omega)
          simpa using this)
    refine ⟨rf, ?_, by simpa using hblk, by simpa using hsrf, ?_, hitf, ?_,
      by simpa using htpf, by simpa using hrlf, by simpa using hrdf,
      by simpa using hrbf⟩
    · show readMany r (rest.length + 1 + 1) = _
      simp only [readMany, hn1]
      simp only [readMany, hn2]
      rw [hread]
      simp [List.zip_cons_cons]
    · rw [hrif]
      simp
      omega
    · rw [hfcmf]
      simp only [compressPairs, fcmStep]

/-- Reading one full chunk: the first `next` call decodes the 16-timestamp
batch and the first value, the remaining 15 calls decode one value each. -/
theorem readChunk16 (chunk : List (Nat × Nat)) (r : DataBlockReader)
    (suffix : List Nat)
    (hlen : chunk.length = 16)
    (hbnd : ∀ q ∈ chunk, q.1 < U64 ∧ q.2 < U64)
    (hprevU : r.ts_prev < U64)
    (hwf : FcmPredictor.Wf r.fcm)
    (hsr : r.srest = (deltaRLE_encode r.ts_prev (chunk.map Prod.fst)).1 ++
      ((compressPairs r.fcm (chunk.map Prod.snd)).1 ++ suffix))
    (hit : r.iter = r.read_index)
    (hz : r.read_index % 16 = 0)
    (hrl : r.runLeft = 0)
    (hmain : r.read_index + 16 ≤ get_main_size r.block) :
    ∃ rf, readMany r 16 =
        some (chunk.map (fun q => (AkuStatus.success, q.1, q.2)), rf) ∧
      rf.block = r.block ∧ rf.srest = suffix ∧
      rf.read_index = r.read_index + 16 ∧ rf.iter = rf.read_index ∧
      rf.ts_prev = (deltaRLE_encode r.ts_prev (chunk.map Prod.fst)).2 ∧
      rf.fcm = (compressPairs r.fcm (chunk.map Prod.snd)).2 ∧
      rf.runLeft = 0 := by
  obtain ⟨t0, v0, t1, v1, rest14, rfl⟩ :
      ∃ t0 v0 t1 v1 rest14, chunk = (t0, v0) :: (t1, v1) :: rest14 := by
    match chunk, hlen with
    | (x0, y0) :: (x1, y1) :: l, _ => exact ⟨x0, y0, x1, y1, l, rfl⟩
  simp only [List.length_cons] at hlen
  have hlen14 : rest14.length = 14 := by omega
  have ht0U : t0 < U64 := (hbnd (t0, v0) (by simp)).1
  have hv0U : v0 < U64 := (hbnd (t0, v0) (by simp)).2
  have ht1U : t1 < U64 := (hbnd (t1, v1) (by simp)).1
  have hv1U : v1 < U64 := (hbnd (t1, v1) (by simp)).2
  have htssb : ∀ x ∈ ((t0, v0) :: (t1, v1) :: rest14).map Prod.fst, x < U64 := by
    intro x hx
    obtain ⟨q, hq, rfl⟩ := List.mem_map.mp hx
    exact (hbnd q hq).1
  have htsslen : (((t0, v0) :: (t1, v1) :: rest14).map Prod.fst).length = 16 := by
    simp [hlen14]
  have htlenU : (((t0, v0) :: (t1, v1) :: rest14).map Prod.fst).length < U64 := by
    rw [htsslen]
    norm_num [U64]
  have hrt := deltaRLE_roundtrip (((t0, v0) :: (t1, v1) :: rest14).map Prod.fst)
    hprevU htssb htlenU r.runDelta
    ((compressPairs r.fcm (((t0, v0) :: (t1, v1) :: rest14).map Prod.snd)).1 ++ suffix)
  rw [htsslen] at hrt
  have hbatch : deltaRLE_decode 16 r.ts_prev r.runLeft r.runDelta r.srest =
      some (((t0, v0) :: (t1, v1) :: rest14).map Prod.fst,
        (((t0, v0) :: (t1, v1) :: rest14).map Prod.fst).getLastD r.ts_prev, 0,
        (((rleRuns (deltasFrom r.ts_prev
            (((t0, v0) :: (t1, v1) :: rest14).map Prod.fst))).map Prod.snd).getLastD
          r.runDelta),
        (compressPairs r.fcm (((t0, v0) :: (t1, v1) :: rest14).map Prod.snd)).1 ++
          suffix) := by
    rw [hsr, hrl]
    exact hrt
  have hd1U : v0 ^^^ r.fcm.predict_next < U64 := xor_lt_U64 hv0U (hwf _)
  have hwf1 : (r.fcm.update v0).Wf := wf_update hwf hv0U
  have hd2U : v1 ^^^ (r.fcm.update v0).predict_next < U64 := xor_lt_U64 hv1U (hwf1 _)
  have hwf2 : ((r.fcm.update v0).update v1).Wf := wf_update hwf1 hv1U
  have hvB : (compressPairs r.fcm (((t0, v0) :: (t1, v1) :: rest14).map Prod.snd)).1 ++
      suffix =
      ((flagOf (v0 ^^^ r.fcm.predict_next) <<< 4) |||
          flagOf (v1 ^^^ (r.fcm.update v0).predict_next)) ::
        (encode_value (v0 ^^^ r.fcm.predict_next) (flagOf (v0 ^^^ r.fcm.predict_next)) ++
          (encode_value (v1 ^^^ (r.fcm.update v0).predict_next)
              (flagOf (v1 ^^^ (r.fcm.update v0).predict_next)) ++
            ((compressPairs ((r.fcm.update v0).update v1) (rest14.map Prod.snd)).1 ++
              suffix))) := by
    simp only [List.map_cons, compressPairs, fcmStep, List.cons_append,
      List.append_assoc]
  have hdec1 : decode_value
      ((((flagOf (v0 ^^^ r.fcm.predict_next) <<< 4) |||
          flagOf (v1 ^^^ (r.fcm.update v0).predict_next))) >>> 4)
      (encode_value (v0 ^^^ r.fcm.predict_next) (flagOf (v0 ^^^ r.fcm.predict_next)) ++
        (encode_value (v1 ^^^ (r.fcm.update v0).predict_next)
            (flagOf (v1 ^^^ (r.fcm.update v0).predict_next)) ++
          ((compressPairs ((r.fcm.update v0).update v1) (rest14.map Prod.snd)).1 ++
            suffix))) =
      some (v0 ^^^ r.fcm.predict_next,
        encode_value (v1 ^^^ (r.fcm.update v0).predict_next)
            (flagOf (v1 ^^^ (r.fcm.update v0).predict_next)) ++
          ((compressPairs ((r.fcm.update v0).update v1) (rest14.map Prod.snd)).1 ++
            suffix)) := by
    rw [hi_nibble _ (flagOf_lt _)]
    exact decode_encode_value _ hd1U _
  have hlt1 : r.read_index < get_main_size r.block := by omega
  have hev1 : r.iter % 2 = 0 := by
    rw [hit]
    have h2 : r.read_index % 16 % 2 = r.read_index % 2 :=
      Nat.mod_mod_of_dvd _ (by norm_num)
    omega
  have hn1 := next_batch_char r _ _ _ _ _ _ _ _ _ hlt1 hz hev1 hbatch hvB hdec1
  rw [xor_unstep v0 r.fcm.predict_next] at hn1
  have hget0 : (((t0, v0) :: (t1, v1) :: rest14).map Prod.fst).getD 0 0 = t0 := by
    simp
  rw [hget0] at hn1
  have hlt2 : r.read_index + 1 < get_main_size r.block := by omega
  have hnz2 : ¬ (r.read_index + 1) % 16 = 0 := by omega
  have hodd2 : (r.iter + 1) % 2 = 1 := by omega
  have hdec2 : decode_value
      ((((flagOf (v0 ^^^ r.fcm.predict_next) <<< 4) |||
          flagOf (v1 ^^^ (r.fcm.update v0).predict_next))) &&& 0xF)
      (encode_value (v1 ^^^ (r.fcm.update v0).predict_next)
          (flagOf (v1 ^^^ (r.fcm.update v0).predict_next)) ++
        ((compressPairs ((r.fcm.update v0).update v1) (rest14.map Prod.snd)).1 ++
          suffix)) =
      some (v1 ^^^ (r.fcm.update v0).predict_next,
        (compressPairs ((r.fcm.update v0).update v1) (rest14.map Prod.snd)).1 ++
          suffix) := by
    rw [lo_nibble _ (flagOf_lt _)]
    exact decode_encode_value _ hd2U _
  have hn2 := next_odd_char
    { r with read_buffer := ((t0, v0) :: (t1, v1) :: rest14).map Prod.fst,
             ts_prev := (((t0, v0) :: (t1, v1) :: rest14).map Prod.fst).getLastD
               r.ts_prev,
             runLeft := 0,
             runDelta := (((rleRuns (deltasFrom r.ts_prev
                 (((t0, v0) :: (t1, v1) :: rest14).map Prod.fst))).map
               Prod.snd).getLastD r.runDelta),
             srest := encode_value (v1 ^^^ (r.fcm.update v0).predict_next)
                   (flagOf (v1 ^^^ (r.fcm.update v0).predict_next)) ++
                 ((compressPairs ((r.fcm.update v0).update v1)
                     (rest14.map Prod.snd)).1 ++ suffix),
             fcm := r.fcm.update v0, iter := r.iter + 1,
             flags := (flagOf (v0 ^^^ r.fcm.predict_next) <<< 4) |||
                 flagOf (v1 ^^^ (r.fcm.update v0).predict_next),
             read_index := r.read_index + 1 } _ _ hlt2 hnz2 hodd2 hdec2
  rw [xor_unstep v1 (r.fcm.update v0).predict_next] at hn2
  have hmod1 : (r.read_index + 1) % 16 = 1 := by omega
  have hget1 : (((t0, v0) :: (t1, v1) :: rest14).map Prod.fst).getD
      ((r.read_index + 1) % 16) 0 = t1 := by
    rw [hmod1]
    simp
  rw [hget1] at hn2
  obtain ⟨rf, hread, hblk, hsrf, hrif, hitf, hfcmf, htpf, hrlf, hrdf, hrbf⟩ :=
    readValsAux (rest14.map Prod.snd) (rest14.map Prod.fst)
      { r with read_buffer := ((t0, v0) :: (t1, v1) :: rest14).map Prod.fst,
               ts_prev := (((t0, v0) :: (t1, v1) :: rest14).map Prod.fst).getLastD
                 r.ts_prev,
               runLeft := 0,
               runDelta := (((rleRuns (deltasFrom r.ts_prev
                   (((t0, v0) :: (t1, v1) :: rest14).map Prod.fst))).map
                 Prod.snd).getLastD r.runDelta),
               srest := (compressPairs ((r.fcm.update v0).update v1)
                   (rest14.map Prod.snd)).1 ++ suffix,
               fcm := (r.fcm.update v0).update v1, iter := r.iter + 1 + 1,
               flags := (flagOf (v0 ^^^ r.fcm.predict_next) <<< 4) |||
                   flagOf (v1 ^^^ (r.fcm.update v0).predict_next),
               read_index := r.read_index + 1 + 1 }
      suffix (by simp [hlen14]) (by simp [hlen14]) (by simp)
      (by
        intro x hx
        obtain ⟨q, hq, rfl⟩ := List.mem_map.mp hx
        exact (hbnd q (by simp [hq])).2)
      hwf2 rfl
      (show r.iter + 1 + 1 = r.read_index + 1 + 1 by omega)
      (by
        intro _
        show (r.read_index + 1 + 1) % 16 = 16 - (rest14.map Prod.snd).length
        simp only [List.length_map, hlen14]
        omega)
      (by
        show r.read_index + 1 + 1 + (rest14.map Prod.snd).length ≤
          get_main_size r.block
        simp only [List.length_map, hlen14]
        omega)
      (by
        intro j hj
        simp only [List.length_map, hlen14] at hj
        show (((t0, v0) :: (t1, v1) :: rest14).map Prod.fst).getD
          ((r.read_index + 1 + 1) % 16 + j) 0 = (rest14.map Prod.fst).getD j 0
        have heq : (r.read_index + 1 + 1) % 16 + j = j + 1 + 1 := by omega
        rw [heq]
        simp)
  have h2r : readMany r 2 = some ([(AkuStatus.success, t0, v0),
      (AkuStatus.success, t1, v1)],
      { r with read_buffer := ((t0, v0) :: (t1, v1) :: rest14).map Prod.fst,
               ts_prev := (((t0, v0) :: (t1, v1) :: rest14).map Prod.fst).getLastD
                 r.ts_prev,
               runLeft := 0,
               runDelta := (((rleRuns (deltasFrom r.ts_prev
                   (((t0, v0) :: (t1, v1) :: rest14).map Prod.fst))).map
                 Prod.snd).getLastD r.runDelta),
               srest := (compressPairs ((r.fcm.update v0).update v1)
                   (rest14.map Prod.snd)).1 ++ suffix,
               fcm := (r.fcm.update v0).update v1, iter := r.iter + 1 + 1,
               flags := (flagOf (v0 ^^^ r.fcm.predict_next) <<< 4) |||
                   flagOf (v1 ^^^ (r.fcm.update v0).predict_next),
               read_index := r.read_index + 1 + 1 }) := by
    show readMany r (0 + 1 + 1) = _
    simp only [readMany, hn1, hn2]
  have hcomb := readMany_add 2 14 r _ rf _ _ h2r
    (by
      rw [show (14 : Nat) = (rest14.map Prod.snd).length by simp [hlen14]]
      exact hread)
  refine ⟨rf, ?_, by simpa using hblk, hsrf, ?_, hitf, ?_, ?_, hrlf⟩
  · have h16 : (16 : Nat) = 2 + 14 := by norm_num
    rw [h16, hcomb]
    simp only [List.map_cons, zip_map_fst_snd, List.cons_append, List.nil_append]
  · rw [hrif]
    simp
    omega
  · rw [htpf]
    rfl
  · rw [hfcmf]
    simp only [List.map_cons, compressPairs, fcmStep]

theorem getLastD_lt_U64 : ∀ (xs : List Nat) (prev : Nat), prev < U64 →
    (∀ x ∈ xs, x < U64) → xs.getLastD prev < U64
  | [], prev, hp, _ => hp
  | a :: l, prev, _, hxs => by
    rw [List.getLastD_cons]
    exact getLastD_lt_U64 l a (hxs a (by simp)) (fun x hx => hxs x (by simp [hx]))

theorem compressPairs_wf : ∀ (vs : List Nat) (p : FcmPredictor), p.Wf →
    (∀ v ∈ vs, v < U64) → (compressPairs p vs).2.Wf
  | [], p, hp, _ => hp
  | [v], p, hp, hv => by
    simp only [compressPairs, fcmStep]
    exact wf_update hp (hv v (by simp))
  | v1 :: v2 :: rest, p, hp, hv => by
    simp only [compressPairs, fcmStep]
    exact compressPairs_wf rest ((p.update v1).update v2)
      (wf_update (wf_update hp (hv v1 (by simp))) (hv v2 (by simp)))
      (fun x hx => hv x (by simp [hx]))

/-- Reading the raw tail: one `(u64, f64)` pair per `next` call. -/
theorem readMany_tail : ∀ (T : List (Nat × Nat)) (r : DataBlockReader)
    (suffix : List Nat),
    (∀ q ∈ T, q.1 < U64 ∧ q.2 < U64) →
    r.srest = rawBytes T ++ suffix →
    get_main_size r.block ≤ r.read_index →
    r.read_index + T.length = get_total_size r.block →
    ∃ rf, readMany r T.length =
        some (T.map (fun q => (AkuStatus.success, q.1, q.2)), rf) ∧
      rf.block = r.block ∧ rf.srest = suffix ∧
      rf.read_index = get_total_size r.block
  | [], r, suffix, _, hsr, _, htot => by
    refine ⟨r, by simp [readMany], rfl, by simpa [rawBytes] using hsr, ?_⟩
    simp only [List.length_nil] at htot
    omega
  | (ts, v) :: rest, r, suffix, hbnd, hsr, hge, htot => by
    simp only [List.length_cons] at htot ⊢
    have hU : U64 = 2 ^ (8 * 8) := by norm_num [U64]
    have hts : ts < 2 ^ (8 * 8) := hU ▸ (hbnd (ts, v) (by simp)).1
    have hv : v < 2 ^ (8 * 8) := hU ▸ (hbnd (ts, v) (by simp)).2
    have hsr1 : r.srest = le64 ts ++ (le64 v ++ (rawBytes rest ++ suffix)) := by
      rw [hsr]
      simp [rawBytes, List.append_assoc]
    have hn := next_tail_char r ts v (rawBytes rest ++ suffix)
      (by omega) (by omega) hsr1 hts hv
    obtain ⟨rf, hread, hblk, hsrf, hrif⟩ := readMany_tail rest
      { r with srest := rawBytes rest ++ suffix, read_index := r.read_index + 1 }
      suffix (fun q hq => hbnd q (by simp [hq])) rfl (by simp; omega)
      (by simp; omega)
    refine ⟨rf, ?_, by simpa using hblk, hsrf, by simpa using hrif⟩
    simp only [readMany, hn, hread, List.map_cons]

/-- Reading the whole compressed region: `c` chunks of 16 samples. -/
theorem readMany_main : ∀ (c : Nat) (C : List (Nat × Nat)) (r : DataBlockReader)
    (suffix : List Nat),
    C.length = 16 * c →
    (∀ q ∈ C, q.1 < U64 ∧ q.2 < U64) →
    r.ts_prev < U64 → FcmPredictor.Wf r.fcm →
    r.srest = encChunks c r.ts_prev r.fcm C ++ suffix →
    r.iter = r.read_index → r.read_index % 16 = 0 → r.runLeft = 0 →
    r.read_index + C.length ≤ get_main_size r.block →
    ∃ rf, readMany r C.length =
        some (C.map (fun q => (AkuStatus.success, q.1, q.2)), rf) ∧
      rf.block = r.block ∧ rf.srest = suffix ∧
      rf.read_index = r.read_index + C.length ∧ rf.iter = rf.read_index ∧
      rf.read_index % 16 = 0 ∧ rf.runLeft = 0 ∧
      rf.ts_prev = (encChunksState c r.ts_prev r.fcm C).1 ∧
      rf.fcm = (encChunksState c r.ts_prev r.fcm C).2
  | 0, C, r, suffix, hlen, _, _, _, hsr, hit, hz, hrl, _ => by
    have hC0 : C = [] := List.eq_nil_of_length_eq_zero (by omega)
    subst hC0
    refine ⟨r, by simp [readMany], rfl, ?_, by simp, by rw [hit], hz, hrl, rfl, rfl⟩
    simpa [encChunks] using hsr
  | c + 1, C, r, suffix, hlen, hbnd, hprevU, hwf, hsr, hit, hz, hrl, hmain => by
    have h16 : 16 ≤ C.length := by omega
    have htklen : (C.take 16).length = 16 := by
      rw [List.length_take]
      omega
    have hdplen : (C.drop 16).length = 16 * c := by
      rw [List.length_drop]
      omega
    have hsr1 : r.srest = (deltaRLE_encode r.ts_prev ((C.take 16).map Prod.fst)).1 ++
        ((compressPairs r.fcm ((C.take 16).map Prod.snd)).1 ++
          (encChunks c (deltaRLE_encode r.ts_prev ((C.take 16).map Prod.fst)).2
              (compressPairs r.fcm ((C.take 16).map Prod.snd)).2 (C.drop 16) ++
            suffix)) := by
      rw [hsr, encChunks_succ]
      simp [List.append_assoc]
    obtain ⟨r1, hread1, hblk1, hsr1f, hri1, hit1, htp1, hfcm1, hrl1⟩ :=
      readChunk16 (C.take 16) r
        (encChunks c (deltaRLE_encode r.ts_prev ((C.take 16).map Prod.fst)).2
            (compressPairs r.fcm ((C.take 16).map Prod.snd)).2 (C.drop 16) ++ suffix)
        htklen (fun q hq => hbnd q (List.take_subset 16 C hq)) hprevU hwf hsr1
        hit hz hrl (by omega)
    have htpU : r1.ts_prev < U64 := by
      rw [htp1]
      show ((C.take 16).map Prod.fst).getLastD r.ts_prev < U64
      refine getLastD_lt_U64 _ _ hprevU ?_
      intro x hx
      obtain ⟨q, hq, rfl⟩ := List.mem_map.mp hx
      exact (hbnd q (List.take_subset 16 C hq)).1
    have hwf1 : r1.fcm.Wf := by
      rw [hfcm1]
      refine compressPairs_wf _ _ hwf ?_
      intro x hx
      obtain ⟨q, hq, rfl⟩ := List.mem_map.mp hx
      exact (hbnd q (List.take_subset 16 C hq)).2
    obtain ⟨rf, hread2, hblk2, hsr2f, hri2, hit2, hz2, hrl2, htp2, hfcm2⟩ :=
      readMany_main c (C.drop 16) r1 suffix hdplen
        (fun q hq => hbnd q (List.drop_subset 16 C hq)) htpU hwf1
        (by rw [hsr1f, htp1, hfcm1])
        hit1 (by rw [hri1]; omega) hrl1
        (by
          rw [hri1, hblk1, hdplen]
          omega)
    refine ⟨rf, ?_, by rw [hblk2, hblk1], hsr2f, ?_, hit2, hz2, hrl2, ?_, ?_⟩
    · have htot : C.length = 16 + (C.drop 16).length := by
        rw [List.length_drop]
        omega
      rw [htot]
      have := readMany_add 16 ((C.drop 16).length) r r1 rf _ _ hread1 hread2
      rw [this]
      rw [← List.map_append, List.take_append_drop]
    · rw [hri2, hri1, List.length_drop]
      omega
    · rw [htp2, htp1, hfcm1, encChunksState_succ]
    · rw [hfcm2, htp1, hfcm1, encChunksState_succ]

/-- C3: a sequence of `put` calls that all return `AKU_SUCCESS`, followed by
`commit`, produces a block from which a `DataBlockReader` returns exactly
the written `(timestamp, value)` pairs in put order, each with
`AKU_SUCCESS`; the following `next` returns `(AKU_ENO_DATA, 0, 0)` (and the
reader state is unchanged, so every subsequent call does too), and
`nelements` equals the number of puts.  Timestamps and value bit patterns
are `u64`; the sample count is bounded by the `u16` header fields. -/
theorem C3_block_roundtrip (cap id : Nat) (S : List (Nat × Nat))
    (hbnd : ∀ q ∈ S, q.1 < U64 ∧ q.2 < U64)
    (hlen16 : S.length < 2 ^ 16)
    (hall : (runPuts (DataBlockWriter.mk0 cap) S).2 =
      List.replicate S.length AkuStatus.success) :
    ∃ wn, (runPuts (DataBlockWriter.mk0 cap) S).1.commit = some wn ∧
      ∃ rf,
        readMany (DataBlockReader.mk0 (wn.1.blockBytes id wn.2)) S.length =
          some (S.map (fun q => (AkuStatus.success, q.1, q.2)), rf) ∧
        rf.next = some ((AkuStatus.enodata, 0, 0), rf) ∧
        (DataBlockReader.mk0 (wn.1.blockBytes id wn.2)).nelements = S.length := by
  have hw0 : WInv (DataBlockWriter.mk0 cap) cap [] [] [] :=
    ⟨rfl, rfl, by norm_num, rfl, rfl, rfl, rfl, fun h => absurd rfl h,
      fun h => absurd rfl h, rfl, rfl, rfl⟩
  obtain ⟨C, St, Tl, hwf, heq⟩ :=
    runPuts_winv S (DataBlockWriter.mk0 cap) cap [] [] [] hw0 hall
  rw [List.nil_append, List.nil_append, List.nil_append] at heq
  obtain ⟨wf, hcommit, hcapf, hbodyf, hntf, hwif⟩ :=
    commit_winv (runPuts (DataBlockWriter.mk0 cap) S).1 cap C St Tl hwf
  obtain ⟨hcapF, hch16, hst16, hwi, hnt, htsb, hvlb, htlF, hstgF, hbodyF, hprevF,
    hfcmF⟩ := hwf
  have hCT : C ++ (Tl ++ St) = S := by
    by_cases hTl : Tl = []
    · rw [hTl, List.nil_append]
      rw [hTl, List.append_nil] at heq
      exact heq
    · have hSt : St = [] := (htlF hTl).1
      rw [hSt, List.append_nil]
      rw [hSt, List.nil_append] at heq
      exact heq
  have hmemC : ∀ q ∈ C, q.1 < U64 ∧ q.2 < U64 := by
    intro q hq
    exact hbnd q (by rw [← hCT]; exact List.mem_append_left _ hq)
  have hmemT : ∀ q ∈ Tl ++ St, q.1 < U64 ∧ q.2 < U64 := by
    intro q hq
    exact hbnd q (by rw [← hCT]; exact List.mem_append_right _ hq)
  have hlenCT : C.length + (Tl ++ St).length = S.length := by
    rw [← hCT]
    simp
  refine ⟨(wf, C.length / 16), hcommit, ?_⟩
  have hntT : wf.ntail = (Tl ++ St).length := by
    rw [hntf]
    simp
  have hnch_lt : C.length / 16 < 2 ^ 16 := by omega
  have hnt_lt : wf.ntail < 2 ^ 16 := by
    rw [hntT]
    omega
  have hmain : get_main_size (wf.blockBytes id (C.length / 16)) = C.length := by
    rw [get_main_size_blockBytes, Nat.mod_eq_of_lt hnch_lt]
    omega
  have htotal : get_total_size (wf.blockBytes id (C.length / 16)) =
      C.length + (Tl ++ St).length := by
    rw [get_total_size_blockBytes, Nat.mod_eq_of_lt hnch_lt,
      Nat.mod_eq_of_lt hnt_lt, hntT]
    omega
  have hsr0 : (DataBlockReader.mk0 (wf.blockBytes id (C.length / 16))).srest =
      encChunks (C.length / 16)
          (DataBlockReader.mk0 (wf.blockBytes id (C.length / 16))).ts_prev
          (DataBlockReader.mk0 (wf.blockBytes id (C.length / 16))).fcm C ++
        rawBytes (Tl ++ St) := by
    show (wf.blockBytes id (C.length / 16)).drop 14 =
      encChunks (C.length / 16) 0 .init C ++ rawBytes (Tl ++ St)
    rw [drop14_blockBytes, hbodyf]
  obtain ⟨r1, hread1, hblk1, hsr1, hri1, hit1, hz1, hrl1, _, _⟩ :=
    readMany_main (C.length / 16) C
      (DataBlockReader.mk0 (wf.blockBytes id (C.length / 16)))
      (rawBytes (Tl ++ St)) (by omega) hmemC U64_pos wf_init hsr0 rfl rfl rfl
      (by
        show 0 + C.length ≤ get_main_size (wf.blockBytes id (C.length / 16))
        rw [hmain]
        omega)
  obtain ⟨rf, hread2, hblk2, hsr2, hri2⟩ :=
    readMany_tail (Tl ++ St) r1 [] hmemT
      (by rw [hsr1, List.append_nil])
      (by
        rw [hblk1, hri1]
        show get_main_size (wf.blockBytes id (C.length / 16)) ≤ 0 + C.length
        rw [hmain]
        omega)
      (by
        rw [hblk1, hri1]
        show 0 + C.length + (Tl ++ St).length =
          get_total_size (wf.blockBytes id (C.length / 16))
        rw [htotal]
        omega)
  refine ⟨rf, ?_, ?_, ?_⟩
  · have hS : S.length = C.length + (Tl ++ St).length := hlenCT.symm
    rw [hS]
    have := readMany_add C.length ((Tl ++ St).length)
      (DataBlockReader.mk0 (wf.blockBytes id (C.length / 16))) r1 rf _ _
      hread1 hread2
    rw [this, ← List.map_append, hCT]
  · have hge : ¬ rf.read_index < get_total_size rf.block := by
      rw [hri2, hblk2, hblk1]
      omega
    exact next_end_char rf hge
  · show get_total_size (wf.blockBytes id (C.length / 16)) = S.length
    rw [htotal]
    omega

theorem C3_block_roundtrip_witness :
    (∀ q ∈ (List.range 17).map (fun i => (i, i)), q.1 < U64 ∧ q.2 < U64) ∧
    ((List.range 17).map (fun i => (i, i))).length < 2 ^ 16 ∧
    ((runPuts (DataBlockWriter.mk0 4096) ((List.range 17).map (fun i => (i, i)))).2 =
      List.replicate ((List.range 17).map (fun i => (i, i))).length
        AkuStatus.success) ∧
    (∃ wn, (runPuts (DataBlockWriter.mk0 4096)
          ((List.range 17).map (fun i => (i, i)))).1.commit = some wn ∧
      ∃ rf, readMany (DataBlockReader.mk0 (wn.1.blockBytes 42 wn.2))
            ((List.range 17).map (fun i => (i, i))).length =
          some (((List.range 17).map (fun i => (i, i))).map
            (fun q => (AkuStatus.success, q.1, q.2)), rf) ∧
        rf.next = some ((AkuStatus.enodata, 0, 0), rf) ∧
        (DataBlockReader.mk0 (wn.1.blockBytes 42 wn.2)).nelements =
          ((List.range 17).map (fun i => (i, i))).length) :=
  ⟨by decide, by decide, by decide,
    C3_block_roundtrip 4096 42 ((List.range 17).map (fun i => (i, i)))
      (by decide) (by decide) (by decide)⟩

end Akumuli
